import Mathlib

/-!
The peer-to-peer host of eris-cpp (`libp2p/Host.cpp`).

A shallow embedding of the host's frame sealing, peer gossip, peer growth,
peer eviction and peer persistence, followed by the properties established
about them.

Conventions of the embedding.

* A byte buffer (`bytes`, a `std::vector<byte>`) is a list of naturals; every
  byte written by the code is masked with `0xff`.
* A `NodeId` (`h512`) is a natural; the null id is `0`.
* A time point of the steady clock is an integer count of milliseconds.
* `std::map<K, V>` is an association list kept in ascending key order; the
  operations below insert in key order and never duplicate a key.
* A `std::weak_ptr<Session>` is an `Option Session`: `none` is an expired
  reference, `some s` resolves to the session `s`.  Distinct entries of the
  peer map refer to distinct session objects, so a session is identified by
  the position of its entry.
* `unsigned` is 32 bits wide; arithmetic on it is reduced modulo `2 ^ 32`.
* Readings of `chrono::steady_clock::now()` and of `time(0)` are inputs: a
  function from the number of the reading to its value.  In `prunePeers` the
  clock is read once for every live entry that a scan of the peer map tests.
* A loop of the source is a recursive function with a fuel argument that
  returns `none` when the fuel runs out; the theorems give the fuel that
  suffices.
-/

namespace Eris

/-! ## Frame codec -/

abbrev Bytes := List Nat

/-- The source's `Host::seal(bytes& _b)`: writes the four sync bytes and the
big-endian 32-bit payload length into the first eight bytes.  Indexing a
buffer shorter than eight bytes is out of bounds in the source; the embedding
returns `none` there. -/
def Host.seal (_b : Bytes) : Option Bytes :=
  if _b.length < 8 then none
  else
    let b0 := _b.set 0 0x22
    let b1 := b0.set 1 0x40
    let b2 := b1.set 2 0x08
    let b3 := b2.set 3 0x91
    let len : Nat := (b3.length % 2 ^ 32 + 2 ^ 32 - 8) % 2 ^ 32
    let b4 := b3.set 4 ((len >>> 24) &&& 0xff)
    let b5 := b4.set 5 ((len >>> 16) &&& 0xff)
    let b6 := b5.set 6 ((len >>> 8) &&& 0xff)
    let b7 := b6.set 7 (len &&& 0xff)
    some b7

/-- Modelled from the spec: the frame decoder, which lives in the session code
and is not part of the sources.  "The inverse reads the header, verifies the
sync, and returns the framed slice": the four sync bytes are checked, the
length `L` is read big-endian from bytes 4..7, and the `L` bytes starting at
index 8 are returned together with `L`; a short buffer, a bad sync or a
truncated payload is rejected. -/
def decodeFrame (b : Bytes) : Option (Nat × Bytes) :=
  if b.length < 8 then none
  else if b.take 4 ≠ [0x22, 0x40, 0x08, 0x91] then none
  else
    let L := b.getD 4 0 * 2 ^ 24 + b.getD 5 0 * 2 ^ 16 + b.getD 6 0 * 2 ^ 8 + b.getD 7 0
    if b.length < 8 + L then none
    else some (L, (b.drop 8).take L)

/-- Modelled from the spec: `Session::prep`, not part of the sources, which
starts a packet with the eight reserved header bytes ("a buffer whose first 8
bytes are reserved"). -/
def Session.prep (payload : Bytes) : Bytes :=
  List.replicate 8 0 ++ payload

/-! ## Data model -/

abbrev NodeId := Nat

/-- A `bi::tcp::endpoint` over IPv4: the address as its 32-bit value (the
unspecified address `0.0.0.0` is `0`) and the port. -/
structure Endpoint where
  address : Nat
  port : Nat
deriving DecidableEq, Repr

/-- Modelled from the spec: the reason codes of a `Disconnect` packet; the
enumeration is declared in a header that is not part of the sources. -/
inductive DisconnectReason where
  | DisconnectRequested | TCPError | BadProtocol | UselessPeer | TooManyPeers
  | DuplicatePeer | IncompatibleProtocol | NullIdentity | ClientQuit
  | UnexpectedIdentity | LocalIdentity | PingTimeout
deriving DecidableEq, Repr

/-- The part of a `Session` that `Host.cpp` reads: `endpoint` is the value of
`Session::endpoint()`, `socketOpen` the value of `m_socket.is_open()`. -/
structure Session where
  m_id : NodeId
  m_listenPort : Nat
  endpoint : Endpoint
  socketOpen : Bool
  m_rating : Int
  m_connect : Int
deriving DecidableEq, Repr

/-- What the host asks of the reactor and of its sessions; the requests are
asynchronous and complete on a later poll. -/
inductive Effect where
  | dial (ep : Endpoint)
  | send (peer : NodeId) (b : Bytes)
  | disconnect (peer : NodeId) (reason : DisconnectReason)
  | accept
  | sessionStart (ep : Endpoint)
deriving DecidableEq, Repr

/-- The fields of `Host` used by the operations below, with the log of the
requests issued so far. -/
structure Host where
  m_id : NodeId
  m_public : Endpoint
  localNetworking : Bool
  m_idealPeerCount : Nat
  m_peers : List (NodeId × Option Session)
  m_incomingPeers : List (NodeId × (Endpoint × Nat))
  m_freePeers : List NodeId
  m_lastPeersRequest : Int
  m_accepting : Bool
  effects : List Effect
deriving DecidableEq, Repr

/-- One item of the persisted peer list: `{IPv4 bytes, port, NodeId}`.  The
RLP byte encoding itself is an external codec; a blob is represented by the
sequence of items it encodes. -/
structure PeerTriple where
  address : Nat
  port : Nat
  id : NodeId
deriving DecidableEq, Repr

/-! ## `std::map` -/

/-- The source's `std::map::find`, as the mapped value if the key is present. -/
def StdMap.find {β : Type} : List (Nat × β) → Nat → Option β
  | [], _ => none
  | (k', v) :: rest, k => if k' = k then some v else StdMap.find rest k

/-- The source's `std::map::count`. -/
def StdMap.count {β : Type} (m : List (Nat × β)) (k : Nat) : Nat :=
  if (StdMap.find m k).isSome then 1 else 0

/-- The place of a new pair in key order. -/
def StdMap.place {β : Type} : List (Nat × β) → Nat → β → List (Nat × β)
  | [], k, v => [(k, v)]
  | (k', v') :: rest, k, v =>
    if k < k' then (k, v) :: (k', v') :: rest
    else (k', v') :: StdMap.place rest k v

/-- The source's `std::map::insert`: a key that is already present keeps its value and the
map is left as it is; otherwise the pair is put at its place in key order. -/
def StdMap.insert {β : Type} (m : List (Nat × β)) (k : Nat) (v : β) : List (Nat × β) :=
  if StdMap.count m k = 0 then StdMap.place m k v else m

/-- Assignment through a reference to the mapped value of `k`. -/
def StdMap.modify {β : Type} : List (Nat × β) → Nat → (β → β) → List (Nat × β)
  | [], _, _ => []
  | (k', v') :: rest, k, f =>
    if k' = k then (k', f v') :: rest else (k', v') :: StdMap.modify rest k f

/-! ## Peer gossip -/

/-- The test `j->m_listenPort != 0 && (!isPrivateAddress(ep.address()) ||
m_netPrefs.localNetworking)` of `Host::potentialPeers`.  `isPrivateAddress` is
defined outside the sources and is taken as a parameter. -/
def peerOnNet (isPrivateAddress : Nat → Bool) (localNetworking : Bool)
    (listenPort : Nat) (ep : Endpoint) : Bool :=
  listenPort != 0 && (!isPrivateAddress ep.address || localNetworking)

/-- The endpoint `ep` and the flag `peerOnNet` computed for one live session
in the loop of `Host::potentialPeers`, after the optional substitution from
`m_incomingPeers`. -/
def effectiveEndpoint (isPrivateAddress : Nat → Bool) (h : Host) (j : Session) :
    Endpoint × Bool :=
  let ep := j.endpoint
  let onNet := peerOnNet isPrivateAddress h.localNetworking j.m_listenPort ep
  if !onNet && StdMap.count h.m_incomingPeers j.m_id != 0 then
    match StdMap.find h.m_incomingPeers j.m_id with
    | some v => (v.1, peerOnNet isPrivateAddress h.localNetworking j.m_listenPort v.1)
    | none => (ep, onNet)
  else (ep, onNet)

/-- The body of the loop of `Host::potentialPeers` for one entry of `m_peers`. -/
def potentialPeersStep (isPrivateAddress : Nat → Bool) (h : Host)
    (ret : List (NodeId × Endpoint)) (i : NodeId × Option Session) :
    List (NodeId × Endpoint) :=
  match i.2 with
  | none => ret
  | some j =>
    let r := effectiveEndpoint isPrivateAddress h j
    if r.2 && r.1.port != 0 && j.m_id != 0 then StdMap.insert ret i.1 r.1 else ret

/-- The source's `Host::potentialPeers()`. -/
def Host.potentialPeers (isPrivateAddress : Nat → Bool) (h : Host) :
    List (NodeId × Endpoint) :=
  let ret : List (NodeId × Endpoint) :=
    if h.m_public.address != 0 then StdMap.insert [] h.m_id h.m_public else []
  h.m_peers.foldl (potentialPeersStep isPrivateAddress h) ret

/-! ## Outbound connections -/

/-- The source's `Host::ensureAccepting()`; the completion handler of the
accept runs on a later poll. -/
def Host.ensureAccepting (h : Host) : Host :=
  if !h.m_accepting then
    { h with m_accepting := true, effects := h.effects ++ [Effect.accept] }
  else h

/-- The source's `Host::connect(bi::tcp::endpoint const&)` up to the point
where it returns: the asynchronous connect is started. -/
def Host.connect (h : Host) (_ep : Endpoint) : Host :=
  { h with effects := h.effects ++ [Effect.dial _ep] }

/-- The completion handler passed to `async_connect` in `Host::connect`; `ec`
is true when the connect failed. -/
def Host.connectCompleted (h : Host) (_ep : Endpoint) (ec : Bool) : Host :=
  if ec then
    match h.m_incomingPeers.find? (fun i => decide (i.2.1 = _ep) && decide (i.2.2 < 3)) with
    | some i => { h with m_freePeers := h.m_freePeers ++ [i.1] }
    | none => h
  else { h with effects := h.effects ++ [Effect.sessionStart _ep] }

/-! ## Growing the peer set -/

/-- The broadcast of the sealed `GetPeers` packet in `Host::growPeers`: one
send for every live session whose socket is open. -/
def broadcast (b : Bytes) (peers : List (NodeId × Option Session)) : List Effect :=
  peers.filterMap (fun i =>
    match i.2 with
    | some p => if p.socketOpen then some (Effect.send i.1 b) else none
    | none => none)

/-- The branch of `Host::growPeers` taken when `m_freePeers` is empty.
`getPeers` is the RLP payload `appendList(1) << GetPeersPacket`; `clock 0` and
`clock 1` are the two readings of the steady clock. -/
def Host.requestPeers (clock : Nat → Int) (getPeers : Bytes) (h : Host) : Host :=
  let h1 : Host :=
    if clock 0 > h.m_lastPeersRequest + 10000 then
      match Host.seal (Session.prep getPeers) with
      | some b =>
        { h with effects := h.effects ++ broadcast b h.m_peers, m_lastPeersRequest := clock 1 }
      | none => h
    else h
  if !h1.m_accepting then h1.ensureAccepting else h1

/-- One pass of the body of the `while` loop of `Host::growPeers` when
`m_freePeers` is not empty; `t` is the value of `time(0)`. -/
def Host.dialFreePeer (t : Nat) (h : Host) : Host :=
  let x := t % h.m_freePeers.length
  let k := h.m_freePeers.getD x 0
  let inc := StdMap.modify (StdMap.insert h.m_incomingPeers k (⟨0, 0⟩, 0)) k
    (fun v => (v.1, (v.2 + 1) % 2 ^ 32))
  let h1 : Host := { h with m_incomingPeers := inc }
  let h2 : Host :=
    if StdMap.count h1.m_peers k = 0 then
      match StdMap.find inc k with
      | some v => h1.connect v.1
      | none => h1
    else h1
  { h2 with m_freePeers := h2.m_freePeers.eraseIdx x }

/-- The source's `Host::growPeers()`.  `time n` is the value `time(0)` returns
in the `n`-th pass of the loop; the result is `none` when `fuel` passes do not
reach the end of the loop. -/
def Host.growPeers (clock : Nat → Int) (time : Nat → Nat) (getPeers : Bytes) :
    Nat → Nat → Host → Option Host
  | 0, _, _ => none
  | fuel + 1, n, h =>
    if h.m_peers.length < h.m_idealPeerCount then
      if h.m_freePeers.isEmpty then some (h.requestPeers clock getPeers)
      else Host.growPeers clock time getPeers fuel (n + 1) (h.dialFreePeer (time n))
    else some h

/-! ## Pruning the peer set -/

/-- The test `chrono::steady_clock::now() > p->m_connect +
chrono::milliseconds(old)`. -/
def isAged (now : Int) (old : Nat) (p : Session) : Bool :=
  decide (now > p.m_connect + (old : Int))

/-- The body of the scan `for (auto i: m_peers)` of `Host::prunePeers`: the
accumulator is `worst` (with the position and key of its entry) and
`agedPeers`; `t` is the number of readings of the steady clock taken so far.
The clock is read once for every live entry, `clock t` being that reading. -/
def scanStep (clock : Nat → Int) (old : Nat) (acc : Option (Nat × NodeId × Session) × Nat)
    (t : Nat) (idx : Nat) (i : NodeId × Option Session) :
    (Option (Nat × NodeId × Session) × Nat) × Nat :=
  match i.2 with
  | none => (acc, t)
  | some p =>
    if isAged (clock t) old p then
      let agedPeers := (acc.2 + 1) % 2 ^ 32
      match acc.1 with
      | none => ((some (idx, i.1, p), agedPeers), t + 1)
      | some w =>
        if p.m_rating < w.2.2.m_rating
            || (p.m_rating == w.2.2.m_rating && decide (p.m_connect > w.2.2.m_connect)) then
          ((some (idx, i.1, p), agedPeers), t + 1)
        else ((some w, agedPeers), t + 1)
    else (acc, t + 1)

/-- The scan of the peer map from position `idx` on, starting with `t`
readings of the clock already taken. -/
def scanFrom (clock : Nat → Int) (old : Nat) :
    Nat → Nat → List (NodeId × Option Session) → Option (Nat × NodeId × Session) × Nat →
    (Option (Nat × NodeId × Session) × Nat) × Nat
  | _, t, [], acc => (acc, t)
  | idx, t, i :: rest, acc =>
    scanFrom clock old (idx + 1) (scanStep clock old acc t idx i).2 rest
      (scanStep clock old acc t idx i).1

/-- The whole scan: `worst` and `agedPeers` as they stand after the `for`,
and the number of clock readings taken by then. -/
def scanPeers (clock : Nat → Int) (old : Nat) (t : Nat)
    (peers : List (NodeId × Option Session)) :
    (Option (Nat × NodeId × Session) × Nat) × Nat :=
  scanFrom clock old 0 t peers (none, 0)

/-- Modelled from the spec: `Session::disconnect`, which is not part of the
sources.  "Session ... destroyed when the socket closes or the peer is
evicted": the disconnect request is issued and the evicted session is
destroyed, so the weak reference kept in the entry at position `idx` (key
`k`) no longer resolves. -/
def Host.disconnect (h : Host) (idx : Nat) (k : NodeId) (reason : DisconnectReason) : Host :=
  { h with m_peers := h.m_peers.set idx (k, none),
           effects := h.effects ++ [Effect.disconnect k reason] }

/-- The inner loop `while (m_peers.size() > m_idealPeerCount)` of
`Host::prunePeers` for the threshold `old`.  `t` is the number of readings of
the steady clock taken so far; the result carries that number at the end and
is `none` when `fuel` passes do not reach the end. -/
def Host.pruneWhile (clock : Nat → Int) (old : Nat) : Nat → Nat → Host → Option (Host × Nat)
  | 0, _, _ => none
  | fuel + 1, t, h =>
    if h.m_peers.length > h.m_idealPeerCount then
      match scanPeers clock old t h.m_peers with
      | ((none, _), t') => some (h, t')
      | ((some worst, agedPeers), t') =>
        if agedPeers ≤ h.m_idealPeerCount then some (h, t')
        else Host.pruneWhile clock old fuel t'
          (h.disconnect worst.1 worst.2.1 DisconnectReason.TooManyPeers)
    else some (h, t)

/-- The outer loop `for (unsigned old = 15000; m_peers.size() >
m_idealPeerCount * 2 && old > 100; old /= 2)` of `Host::prunePeers`. -/
def Host.pruneFor (clock : Nat → Int) : Nat → Nat → Nat → Host → Option (Host × Nat)
  | 0, _, _, _ => none
  | fuel + 1, old, t, h =>
    if h.m_peers.length > h.m_idealPeerCount * 2 % 2 ^ 32 ∧ old > 100 then
      match Host.pruneWhile clock old (fuel + 1) t h with
      | some r => Host.pruneFor clock fuel (old / 2) r.2 r.1
      | none => none
    else some (h, t)

/-- The loop "Remove dead peers from list" that ends `Host::prunePeers`. -/
def removeDead (peers : List (NodeId × Option Session)) : List (NodeId × Option Session) :=
  peers.filter (fun i => i.2.isSome)

/-- The source's `Host::prunePeers()`. -/
def Host.prunePeers (clock : Nat → Int) (fuel : Nat) (h : Host) : Option Host :=
  match Host.pruneFor clock fuel 15000 0 h with
  | some r => some { r.1 with m_peers := removeDead r.1.m_peers }
  | none => none

/-! ## Persistence -/

/-- The source's `Host::savePeers()`: one item for every live session with an
open socket and a non-zero endpoint port. -/
def Host.savePeers (h : Host) : List PeerTriple :=
  h.m_peers.filterMap (fun i =>
    match i.2 with
    | some p =>
      if p.socketOpen && p.endpoint.port != 0 then
        some ⟨p.endpoint.address, p.endpoint.port, p.m_id⟩
      else none
    | none => none)

/-- The body of the loop of `Host::restorePeers` for one item. -/
def restoreStep (h : Host) (i : PeerTriple) : Host :=
  let k := i.id
  if StdMap.count h.m_incomingPeers k = 0 then
    { h with m_incomingPeers := StdMap.insert h.m_incomingPeers k (⟨i.address, i.port⟩, 0),
             m_freePeers := h.m_freePeers ++ [k] }
  else h

/-- The source's `Host::restorePeers(bytesConstRef _b)`. -/
def Host.restorePeers (h : Host) (_b : List PeerTriple) : Host :=
  _b.foldl restoreStep h

/-! ## Definitions used to state the properties -/

/-- An instance of `isPrivateAddress` for the examples: the loopback network
and the private IPv4 ranges `10/8`, `172.16/12` and `192.168/16`. -/
def isPrivateV4 (a : Nat) : Bool :=
  a / 2 ^ 24 == 10 || a / 2 ^ 24 == 127 ||
  (a / 2 ^ 24 == 172 && decide (16 ≤ a / 2 ^ 16 % 256) && decide (a / 2 ^ 16 % 256 ≤ 31)) ||
  (a / 2 ^ 24 == 192 && a / 2 ^ 16 % 256 == 168)

/-- The endpoint gossiped for a live session, in the words of the spec: the
session's endpoint, or, when that one is unusable (listen port zero, or a
private address without local networking) and the IncomingPeer table has an
entry for the session's id, the endpoint remembered there. -/
def gossipEndpoint (isPrivateAddress : Nat → Bool) (h : Host) (j : Session) : Endpoint :=
  if j.m_listenPort ≠ 0 ∧ (isPrivateAddress j.endpoint.address = false ∨ h.localNetworking = true)
  then j.endpoint
  else match StdMap.find h.m_incomingPeers j.m_id with
    | some v => v.1
    | none => j.endpoint

/-- The number of entries of the peer map whose session is alive. -/
def liveCount (peers : List (NodeId × Option Session)) : Nat :=
  peers.countP (fun i => i.2.isSome)

/-- The number of live sessions that a scan of the peer map starting with `t`
clock readings taken finds to meet the age threshold `old`: every live
session is tested against its own reading of the clock. -/
def agedCount (clock : Nat → Int) (old : Nat) : Nat → List (NodeId × Option Session) → Nat
  | _, [] => 0
  | t, (_, none) :: rest => agedCount clock old t rest
  | t, (_, some p) :: rest =>
    (if clock t > p.m_connect + (old : Int) then 1 else 0) + agedCount clock old (t + 1) rest

/-- The invariant of the scan of `Host::prunePeers` after the entries `pre`,
for a scan that started with `t0` clock readings taken: the reading for the
entry at position `j` is number `t0 + liveCount (pre.take j)`; `agedPeers`
counts the live sessions found aged (as an `unsigned`); `worst` is unset only
if none was found aged, and otherwise is a live session found aged, of
minimal rating among those found aged and of latest connect time among those
of that rating. -/
def ScanInv (clock : Nat → Int) (old : Nat) (t0 : Nat) (pre : List (NodeId × Option Session))
    (acc : Option (Nat × NodeId × Session) × Nat) (t : Nat) : Prop :=
  t = t0 + liveCount pre ∧
  acc.2 = agedCount clock old t0 pre % 2 ^ 32 ∧
  (acc.1 = none → ∀ j k q, pre[j]? = some (k, some q) →
    ¬ clock (t0 + liveCount (pre.take j)) > q.m_connect + (old : Int)) ∧
  (∀ w, acc.1 = some w →
    pre[w.1]? = some (w.2.1, some w.2.2) ∧
    clock (t0 + liveCount (pre.take w.1)) > w.2.2.m_connect + (old : Int) ∧
    ∀ j k q, pre[j]? = some (k, some q) →
      clock (t0 + liveCount (pre.take j)) > q.m_connect + (old : Int) →
      w.2.2.m_rating ≤ q.m_rating ∧
      (q.m_rating = w.2.2.m_rating → q.m_connect ≤ w.2.2.m_connect))

/-- How one entry of the peer map may change during the eviction loops: it
stays as it is, or its live session `s` is evicted (and `Q` holds of it). -/
def EvictRel (Q : NodeId → Session → Prop) (a b : NodeId × Option Session) : Prop :=
  b = a ∨ ∃ s, a.2 = some s ∧ b = (a.1, none) ∧ Q a.1 s

/-- The relation between the host before and after the eviction loops: the
ideal count is kept, the log grows by disconnect requests, and every entry
either stays or had its session disconnected for `TooManyPeers`. -/
def Pruned (h r : Host) : Prop :=
  r.m_idealPeerCount = h.m_idealPeerCount ∧
  ∃ log, r.effects = h.effects ++ log ∧
    List.Forall₂
      (EvictRel (fun k _ => Effect.disconnect k DisconnectReason.TooManyPeers ∈ log))
      h.m_peers r.m_peers

/-- The inner loop of `Host::prunePeers` run for each threshold of a list in
turn. -/
def pruneSeq (clock : Nat → Int) (fuel : Nat) : List Nat → Nat → Host → Option (Host × Nat)
  | [], t, h => some (h, t)
  | old :: rest, t, h =>
    match Host.pruneWhile clock old fuel t h with
    | some r => pruneSeq clock fuel rest r.2 r.1
    | none => none

/-- The values `old` takes in `for (old = ...; old > 100; old /= 2)`, at most
`n` of them. -/
def thresholds : Nat → Nat → List Nat
  | 0, _ => []
  | n + 1, old => if old > 100 then old :: thresholds n (old / 2) else []

/-! ## Example hosts -/

/-- A host whose IncomingPeer table has three entries for the same endpoint. -/
def hostA : Host :=
  { m_id := 1, m_public := ⟨0, 0⟩, localNetworking := false, m_idealPeerCount := 5,
    m_peers := [],
    m_incomingPeers := [(7, (⟨16843009, 30303⟩, 3)), (8, (⟨16843009, 30303⟩, 1)),
      (9, (⟨16843009, 30303⟩, 0))],
    m_freePeers := [], m_lastPeersRequest := 0, m_accepting := false, effects := [] }

/-- A live session whose socket has closed: its endpoint is the default
endpoint `0.0.0.0:0` while the advertised listen port is 30303. -/
def sessClosed : Session := ⟨7, 30303, ⟨0, 0⟩, false, 0, 100⟩

/-- A host with three live peers and one dead weak reference. -/
def hostB : Host :=
  { m_id := 1, m_public := ⟨134744072, 30303⟩, localNetworking := false, m_idealPeerCount := 5,
    m_peers := [(7, some sessClosed),
                (8, some ⟨8, 30303, ⟨3232235777, 30303⟩, true, 0, 100⟩),
                (9, some ⟨9, 30304, ⟨134743044, 30304⟩, true, 0, 100⟩),
                (10, none)],
    m_incomingPeers := [(8, (⟨16843009, 30305⟩, 1))],
    m_freePeers := [], m_lastPeersRequest := 0, m_accepting := false, effects := [] }

/-- A freshly started host: no peers, an empty IncomingPeer table and an empty
free-peer queue. -/
def hostF : Host :=
  { m_id := 1, m_public := ⟨134744072, 30303⟩, localNetworking := false, m_idealPeerCount := 5,
    m_peers := [], m_incomingPeers := [], m_freePeers := [],
    m_lastPeersRequest := 0, m_accepting := false, effects := [] }

/-- A persisted peer list with two items. -/
def blobF : List PeerTriple :=
  [⟨16843009, 30303, 11⟩, ⟨16843010, 30304, 12⟩]

/-- A host with ideal peer count 1 and three live peers of rating 0 that
connected at times 10, 20 and 30. -/
def hostS : Host :=
  { m_id := 100, m_public := ⟨134744072, 30303⟩, localNetworking := false, m_idealPeerCount := 1,
    m_peers := [(1, some ⟨1, 30303, ⟨134744073, 30303⟩, true, 0, 10⟩),
                (2, some ⟨2, 30303, ⟨134744074, 30303⟩, true, 0, 20⟩),
                (3, some ⟨3, 30303, ⟨134744075, 30303⟩, true, 0, 30⟩)],
    m_incomingPeers := [], m_freePeers := [],
    m_lastPeersRequest := 0, m_accepting := false, effects := [] }

/-- The host `hostS` after one run of `Host::prunePeers` at time 20000. -/
def hostS' : Host :=
  { hostS with
    m_peers := [(1, some ⟨1, 30303, ⟨134744073, 30303⟩, true, 0, 10⟩)],
    effects := [Effect.disconnect 3 DisconnectReason.TooManyPeers,
                Effect.disconnect 2 DisconnectReason.TooManyPeers] }

/-- A steady clock that reads 20000 ms at every reading. -/
def clockS : Nat → Int := fun _ => 20000

/-- The values of `time(0)` used in the examples. -/
def timeS : Nat → Nat := fun n => 7 * n + 3

/-- A session of rating 0 that connected at time 150. -/
def sessA : Session := ⟨1, 30303, ⟨134744073, 30303⟩, true, 0, 150⟩

/-- A session of rating 5 that connected at time 100. -/
def sessB : Session := ⟨2, 30303, ⟨134744074, 30303⟩, true, 5, 100⟩

/-- A session of rating 7 that connected at time 100. -/
def sessC : Session := ⟨3, 30303, ⟨134744075, 30303⟩, true, 7, 100⟩

/-- A host with ideal peer count 1 and the three live peers `sessA`, `sessB`
and `sessC`. -/
def hostT : Host :=
  { m_id := 100, m_public := ⟨134744072, 30303⟩, localNetworking := false, m_idealPeerCount := 1,
    m_peers := [(1, some sessA), (2, some sessB), (3, some sessC)],
    m_incomingPeers := [], m_freePeers := [],
    m_lastPeersRequest := 0, m_accepting := false, effects := [] }

/-- A steady clock that advances by 51 ms from one reading to the next,
starting at 15100 ms. -/
def clockT : Nat → Int := fun n => 15100 + 51 * (n : Int)

/-- A peer map of `n` live sessions with the keys `1 .. n`, all of rating 0
and connected at time 0. -/
def bigPeers (n : Nat) : List (NodeId × Option Session) :=
  (List.range n).map (fun i => (i + 1, some ⟨i + 1, 30303, ⟨134744072, 30303⟩, true, 0, 0⟩))

/-- A host with ideal peer count `ideal` and `ideal + 1` live peers. -/
def hostBig (ideal : Nat) : Host :=
  { m_id := 0, m_public := ⟨134744072, 30303⟩, localNetworking := false,
    m_idealPeerCount := ideal, m_peers := bigPeers (ideal + 1),
    m_incomingPeers := [], m_freePeers := [],
    m_lastPeersRequest := 0, m_accepting := false, effects := [] }
/-! ### Properties of the frame codec -/

theorem and_255 (n : Nat) : n &&& 0xff = n % 256 :=
  Nat.and_pow_two_sub_one_eq_mod n 8

theorem seal_eq (b : Bytes) (h8 : 8 ≤ b.length) :
    Host.seal b = some
      ([0x22, 0x40, 0x08, 0x91,
        ((b.length % 2 ^ 32 + 2 ^ 32 - 8) % 2 ^ 32) / 2 ^ 24 % 256,
        ((b.length % 2 ^ 32 + 2 ^ 32 - 8) % 2 ^ 32) / 2 ^ 16 % 256,
        ((b.length % 2 ^ 32 + 2 ^ 32 - 8) % 2 ^ 32) / 2 ^ 8 % 256,
        ((b.length % 2 ^ 32 + 2 ^ 32 - 8) % 2 ^ 32) % 256] ++ b.drop 8) := by
  match b, h8 with
  | a0 :: a1 :: a2 :: a3 :: a4 :: a5 :: a6 :: a7 :: rest, _ =>
    simp only [Host.seal, List.length_cons, List.length_set, List.set_cons_zero,
      List.set_cons_succ, and_255, Nat.shiftRight_eq_div_pow]
    rw [if_neg (by omega)]
    simp

/-- C1: for every buffer of at least eight bytes whose payload length fits in
32 bits, `Host::seal` succeeds, keeps the size, writes the sync bytes
`0x22 0x40 0x08 0x91` into bytes 0..3 and the big-endian encoding of
`size - 8` into bytes 4..7 (each of them a byte value). -/
theorem C1_seal_header (b : Bytes) (h8 : 8 ≤ b.length) (hlen : b.length - 8 < 2 ^ 32) :
    ∃ s, Host.seal b = some s ∧ s.length = b.length ∧
      s.take 4 = [0x22, 0x40, 0x08, 0x91] ∧
      s.getD 4 0 < 256 ∧ s.getD 5 0 < 256 ∧ s.getD 6 0 < 256 ∧ s.getD 7 0 < 256 ∧
      s.getD 4 0 * 2 ^ 24 + s.getD 5 0 * 2 ^ 16 + s.getD 6 0 * 2 ^ 8 + s.getD 7 0
        = b.length - 8 := by
  have hl : (b.length % 2 ^ 32 + 2 ^ 32 - 8) % 2 ^ 32 = b.length - 8 := by omega
  have hd : (b.drop 8).length + 8 = b.length := by
    rw [List.length_drop]; omega
  rw [seal_eq b h8, hl]
  refine ⟨_, rfl, ?_, rfl, ?_⟩
  · simp only [List.length_append, List.length_cons, List.length_nil]
    omega
  · generalize b.length - 8 = n at hlen ⊢
    simp only [List.cons_append, List.getD_cons_succ, List.getD_cons_zero]
    omega

theorem C1_seal_header_witness :
    8 ≤ (Session.prep [1, 2, 3]).length ∧ (Session.prep [1, 2, 3]).length - 8 < 2 ^ 32 ∧
    ∃ s, Host.seal (Session.prep [1, 2, 3]) = some s ∧
      s.length = (Session.prep [1, 2, 3]).length ∧
      s.take 4 = [0x22, 0x40, 0x08, 0x91] ∧
      s.getD 4 0 < 256 ∧ s.getD 5 0 < 256 ∧ s.getD 6 0 < 256 ∧ s.getD 7 0 < 256 ∧
      s.getD 4 0 * 2 ^ 24 + s.getD 5 0 * 2 ^ 16 + s.getD 6 0 * 2 ^ 8 + s.getD 7 0
        = (Session.prep [1, 2, 3]).length - 8 :=
  ⟨by decide, by decide, C1_seal_header _ (by decide) (by decide)⟩

theorem decodeFrame_header (a b c d : Nat) (v : Bytes)
    (hL : a * 2 ^ 24 + b * 2 ^ 16 + c * 2 ^ 8 + d = v.length) :
    decodeFrame (0x22 :: 0x40 :: 0x08 :: 0x91 :: a :: b :: c :: d :: v) = some (v.length, v) := by
  simp only [decodeFrame, List.length_cons, List.getD_cons_succ, List.getD_cons_zero, hL,
    List.take_succ_cons, List.take_zero, List.drop_succ_cons, List.drop_zero, List.take_length]
  rw [if_neg (by omega), if_neg (by simp), if_neg (by omega)]

/-- C2: frame round-trip.  Sealing eight reserved bytes followed by a payload
`v` shorter than `2 ^ 32` keeps the size and every byte from index 8 on, and
the decoder described by the spec returns the length of `v` and `v` itself. -/
theorem C2_frame_roundtrip (reserved v : Bytes) (hr : reserved.length = 8)
    (hv : v.length < 2 ^ 32) :
    ∃ s, Host.seal (reserved ++ v) = some s ∧
      s.length = (reserved ++ v).length ∧
      (∀ i, 8 ≤ i → s[i]? = (reserved ++ v)[i]?) ∧
      s.drop 8 = v ∧
      decodeFrame s = some (v.length, v) := by
  have hp : (reserved ++ v).length = v.length + 8 := by
    simp [hr]; omega
  have hd : (reserved ++ v).drop 8 = v := List.drop_left' hr
  have hl : ((reserved ++ v).length % 2 ^ 32 + 2 ^ 32 - 8) % 2 ^ 32 = v.length := by
    rw [hp]; omega
  rw [seal_eq _ (by omega), hl, hd]
  refine ⟨_, rfl, ?_, ?_, ?_, ?_⟩
  · simp only [List.length_append, List.length_cons, List.length_nil, hr]
  · intro i hi
    obtain ⟨j, rfl⟩ : ∃ j, i = j + 8 := ⟨i - 8, by omega⟩
    rw [List.getElem?_append_right (by simp), List.getElem?_append_right (by omega)]
    simp [hr]
  · simp
  · exact decodeFrame_header _ _ _ _ v (by omega)

theorem C2_frame_roundtrip_witness :
    (List.replicate 8 0).length = 8 ∧ [7, 9].length < 2 ^ 32 ∧
    ∃ s, Host.seal (List.replicate 8 0 ++ [7, 9]) = some s ∧
      s.length = (List.replicate 8 0 ++ [7, 9]).length ∧
      (∀ i, 8 ≤ i → s[i]? = (List.replicate 8 0 ++ [7, 9])[i]?) ∧
      s.drop 8 = [7, 9] ∧
      decodeFrame s = some ([7, 9].length, [7, 9]) :=
  ⟨by decide, by decide, C2_frame_roundtrip (List.replicate 8 0) [7, 9] (by decide) (by decide)⟩
/-! ### Properties of the map operations -/

theorem StdMap.count_eq_zero {β : Type} (m : List (Nat × β)) (k : Nat) :
    StdMap.count m k = 0 ↔ StdMap.find m k = none := by
  unfold StdMap.count
  cases StdMap.find m k <;> simp

theorem StdMap.find_place_ne {β : Type} (m : List (Nat × β)) (k k' : Nat) (v : β)
    (hne : k' ≠ k) : StdMap.find (StdMap.place m k v) k' = StdMap.find m k' := by
  induction m with
  | nil => simp [StdMap.place, StdMap.find, Ne.symm hne]
  | cons e rest ih =>
    obtain ⟨k0, v0⟩ := e
    unfold StdMap.place
    split
    · simp [StdMap.find, Ne.symm hne]
    · simp [StdMap.find, ih]

theorem StdMap.find_place_self {β : Type} (m : List (Nat × β)) (k : Nat) (v : β)
    (hk : StdMap.find m k = none) : StdMap.find (StdMap.place m k v) k = some v := by
  induction m with
  | nil => simp [StdMap.place, StdMap.find]
  | cons e rest ih =>
    obtain ⟨k0, v0⟩ := e
    have h0 : k0 ≠ k := by
      intro h; simp [StdMap.find, h] at hk
    have hr : StdMap.find rest k = none := by
      simpa [StdMap.find, h0] using hk
    unfold StdMap.place
    split
    · simp [StdMap.find]
    · simp [StdMap.find, h0, ih hr]

theorem StdMap.find_insert_ne {β : Type} (m : List (Nat × β)) (k k' : Nat) (v : β)
    (hne : k' ≠ k) : StdMap.find (StdMap.insert m k v) k' = StdMap.find m k' := by
  unfold StdMap.insert
  split
  · exact StdMap.find_place_ne m k k' v hne
  · rfl

theorem StdMap.find_insert_self {β : Type} (m : List (Nat × β)) (k : Nat) (v : β)
    (hk : StdMap.find m k = none) : StdMap.find (StdMap.insert m k v) k = some v := by
  unfold StdMap.insert
  rw [if_pos ((StdMap.count_eq_zero m k).mpr hk)]
  exact StdMap.find_place_self m k v hk

theorem StdMap.insert_present {β : Type} (m : List (Nat × β)) (k : Nat) (v w : β)
    (hk : StdMap.find m k = some w) : StdMap.insert m k v = m := by
  unfold StdMap.insert
  rw [if_neg]
  rw [StdMap.count_eq_zero, hk]
  simp

theorem StdMap.find_modify {β : Type} (m : List (Nat × β)) (k k' : Nat) (f : β → β) :
    StdMap.find (StdMap.modify m k f) k' =
      if k' = k then (StdMap.find m k).map f else StdMap.find m k' := by
  induction m with
  | nil => simp [StdMap.modify, StdMap.find]
  | cons e rest ih =>
    obtain ⟨k0, v0⟩ := e
    unfold StdMap.modify
    by_cases h0 : k0 = k
    · subst h0
      by_cases hk : k' = k0
      · subst hk; simp [StdMap.find]
      · simp [StdMap.find, hk, Ne.symm hk]
    · rw [if_neg h0]
      by_cases hk : k' = k
      · subst hk
        simp only [StdMap.find, if_neg h0, ih, if_true]
      · by_cases h1 : k0 = k'
        · simp [StdMap.find, h1, hk]
        · simp only [StdMap.find, if_neg h1, ih, if_neg hk]
/-! ### Connect failure -/

/-- C8: when an outbound connect to `ep` fails, either some entry of the
IncomingPeer table with endpoint `ep` and attempt-count below 3 exists and
its NodeId, and nothing else, is appended to the free-peer queue, or every
entry for `ep` has attempt-count at least 3 (possibly none exists) and the
queue is unchanged; the IncomingPeer table and the peer map are unchanged. -/
theorem C8_connect_failure (h : Host) (ep : Endpoint) :
    (h.connectCompleted ep true).m_incomingPeers = h.m_incomingPeers ∧
    (h.connectCompleted ep true).m_peers = h.m_peers ∧
    ((∃ k c, (k, (ep, c)) ∈ h.m_incomingPeers ∧ c < 3 ∧
        (h.connectCompleted ep true).m_freePeers = h.m_freePeers ++ [k]) ∨
     ((∀ i ∈ h.m_incomingPeers, i.2.1 = ep → 3 ≤ i.2.2) ∧
        (h.connectCompleted ep true).m_freePeers = h.m_freePeers)) := by
  unfold Host.connectCompleted
  rw [if_pos rfl]
  cases hf : h.m_incomingPeers.find? (fun i => decide (i.2.1 = ep) && decide (i.2.2 < 3)) with
  | none =>
    refine ⟨rfl, rfl, Or.inr ⟨?_, rfl⟩⟩
    intro i hi he
    have := List.find?_eq_none.mp hf i hi
    simp [he] at this
    exact this
  | some i =>
    refine ⟨rfl, rfl, Or.inl ⟨i.1, i.2.2, ?_, ?_, rfl⟩⟩
    · have hm := List.mem_of_find?_eq_some hf
      have hp := List.find?_some hf
      simp at hp
      rw [← hp.1]
      exact hm
    · have hp := List.find?_some hf
      simp at hp
      exact hp.2
/-! ### Persistence -/

theorem restoreStep_find (h : Host) (t : PeerTriple) (k : NodeId) :
    StdMap.find (restoreStep h t).m_incomingPeers k =
      match StdMap.find h.m_incomingPeers k with
      | some v => some v
      | none => if t.id = k then some (⟨t.address, t.port⟩, 0) else none := by
  unfold restoreStep
  by_cases hc : StdMap.count h.m_incomingPeers t.id = 0
  · have hn := (StdMap.count_eq_zero _ _).mp hc
    simp only [hc, if_true]
    by_cases hk : t.id = k
    · subst hk
      rw [StdMap.find_insert_self _ _ _ hn, hn]
      simp
    · rw [StdMap.find_insert_ne _ _ _ _ (Ne.symm hk)]
      cases StdMap.find h.m_incomingPeers k <;> simp [hk]
  · have hs : StdMap.find h.m_incomingPeers t.id ≠ none := by
      intro hn; exact hc ((StdMap.count_eq_zero _ _).mpr hn)
    simp only [hc, if_false]
    by_cases hk : t.id = k
    · subst hk
      cases hf : StdMap.find h.m_incomingPeers t.id with
      | none => exact absurd hf hs
      | some v => rfl
    · cases StdMap.find h.m_incomingPeers k <;> simp [hk]

theorem restorePeers_find (b : List PeerTriple) (h : Host) (k : NodeId) :
    StdMap.find (h.restorePeers b).m_incomingPeers k =
      match StdMap.find h.m_incomingPeers k with
      | some v => some v
      | none => (b.find? (fun t => t.id == k)).map (fun t => (⟨t.address, t.port⟩, 0)) := by
  induction b generalizing h with
  | nil => cases hf : StdMap.find h.m_incomingPeers k <;> simp [Host.restorePeers, hf]
  | cons t rest ih =>
    have := ih (restoreStep h t)
    simp only [Host.restorePeers, List.foldl_cons] at this ⊢
    rw [this, restoreStep_find]
    cases hf : StdMap.find h.m_incomingPeers k with
    | some v => rfl
    | none =>
      by_cases hk : t.id = k
      · simp [hk]
      · simp [hk, List.find?_cons]

theorem restorePeers_free (b : List PeerTriple) (h : Host) :
    ∃ added, (h.restorePeers b).m_freePeers = h.m_freePeers ++ added ∧ added.Nodup ∧
      ∀ k, k ∈ added ↔ (k ∈ b.map (fun t => t.id) ∧ StdMap.find h.m_incomingPeers k = none) := by
  induction b generalizing h with
  | nil => exact ⟨[], by simp [Host.restorePeers], List.nodup_nil, by simp⟩
  | cons t rest ih =>
    obtain ⟨added, hfree, hnd, hmem⟩ := ih (restoreStep h t)
    have hfind := restoreStep_find h t
    simp only [Host.restorePeers, List.foldl_cons] at hfree ⊢
    by_cases hc : StdMap.count h.m_incomingPeers t.id = 0
    · have hn := (StdMap.count_eq_zero _ _).mp hc
      have hfr : (restoreStep h t).m_freePeers = h.m_freePeers ++ [t.id] := by
        simp [restoreStep, hc]
      refine ⟨t.id :: added, ?_, ?_, ?_⟩
      · rw [hfree, hfr]; simp
      · refine List.nodup_cons.mpr ⟨?_, hnd⟩
        intro hin
        have := ((hmem t.id).mp hin).2
        rw [hfind, hn] at this
        simp at this
      · intro k
        rw [List.mem_cons, hmem, hfind]
        by_cases hk : t.id = k
        · subst hk; simp [hn]
        · cases hf : StdMap.find h.m_incomingPeers k with
          | some v => simp [Ne.symm hk]
          | none => simp [hk, Ne.symm hk]
    · have hs : StdMap.find h.m_incomingPeers t.id ≠ none := by
        intro hn; exact hc ((StdMap.count_eq_zero _ _).mpr hn)
      have hst : restoreStep h t = h := by simp [restoreStep, hc]
      refine ⟨added, ?_, hnd, ?_⟩
      · rw [hfree, hst]
      rw [hst] at hmem
      intro k
      rw [hmem]
      by_cases hk : t.id = k
      · subst hk; simp [hs]
      · simp [Ne.symm hk]

theorem savePeers_mem (h : Host) (t : PeerTriple) :
    t ∈ h.savePeers ↔ ∃ e ∈ h.m_peers, ∃ p, e.2 = some p ∧ p.socketOpen = true ∧
      p.endpoint.port ≠ 0 ∧ t = ⟨p.endpoint.address, p.endpoint.port, p.m_id⟩ := by
  unfold Host.savePeers
  rw [List.mem_filterMap]
  constructor
  · rintro ⟨e, he, hs⟩
    refine ⟨e, he, ?_⟩
    cases hp : e.2 with
    | none => simp [hp] at hs
    | some p =>
      simp only [hp] at hs
      by_cases hc : (p.socketOpen && p.endpoint.port != 0) = true
      · rw [if_pos hc] at hs
        simp at hc
        exact ⟨p, rfl, hc.1, hc.2, (Option.some.inj hs).symm⟩
      · rw [if_neg hc] at hs
        cases hs
  · rintro ⟨e, he, p, hp, ho, hport, rfl⟩
    refine ⟨e, he, ?_⟩
    simp [hp, ho, hport]

/-- C6: after `restorePeers(savePeers())` the keys of the IncomingPeer table
are the previous keys united with the saved ids (the ids of the live sessions
with an open socket and a non-zero endpoint port); entries already present
keep their value; every newly added id is mapped to the endpoint of a saved
session with that id and attempt-count 0; the free-peer queue is the old
queue followed by the newly added ids, each exactly once. -/
theorem C6_restore_save (h : Host) :
    (∀ k, k ∈ h.savePeers.map (fun t => t.id) ↔
      ∃ e ∈ h.m_peers, ∃ p, e.2 = some p ∧ p.socketOpen = true ∧ p.endpoint.port ≠ 0 ∧
        p.m_id = k) ∧
    (∀ k, (StdMap.find (h.restorePeers h.savePeers).m_incomingPeers k).isSome ↔
      ((StdMap.find h.m_incomingPeers k).isSome ∨ k ∈ h.savePeers.map (fun t => t.id))) ∧
    (∀ k v, StdMap.find h.m_incomingPeers k = some v →
      StdMap.find (h.restorePeers h.savePeers).m_incomingPeers k = some v) ∧
    (∀ k, StdMap.find h.m_incomingPeers k = none → k ∈ h.savePeers.map (fun t => t.id) →
      ∃ e ∈ h.m_peers, ∃ p, e.2 = some p ∧ p.socketOpen = true ∧ p.endpoint.port ≠ 0 ∧
        p.m_id = k ∧
        StdMap.find (h.restorePeers h.savePeers).m_incomingPeers k = some (p.endpoint, 0)) ∧
    (∃ added, (h.restorePeers h.savePeers).m_freePeers = h.m_freePeers ++ added ∧
      added.Nodup ∧
      ∀ k, k ∈ added ↔
        (k ∈ h.savePeers.map (fun t => t.id) ∧ StdMap.find h.m_incomingPeers k = none)) := by
  refine ⟨?_, ?_, ?_, ?_, restorePeers_free h.savePeers h⟩
  · intro k
    rw [List.mem_map]
    constructor
    · rintro ⟨t, ht, rfl⟩
      obtain ⟨e, he, p, hp, ho, hport, rfl⟩ := (savePeers_mem h t).mp ht
      exact ⟨e, he, p, hp, ho, hport, rfl⟩
    · rintro ⟨e, he, p, hp, ho, hport, rfl⟩
      exact ⟨_, (savePeers_mem h _).mpr ⟨e, he, p, hp, ho, hport, rfl⟩, rfl⟩
  · intro k
    rw [restorePeers_find]
    cases hf : StdMap.find h.m_incomingPeers k with
    | some v => simp
    | none =>
      simp only [Option.isSome_map', Option.isSome_none, Bool.false_eq_true, false_or,
        List.find?_isSome, List.mem_map]
      constructor
      · rintro ⟨t, ht, hk⟩
        exact ⟨t, ht, by simpa using hk⟩
      · rintro ⟨t, ht, hk⟩
        exact ⟨t, ht, by simpa using hk⟩
  · intro k v hv
    rw [restorePeers_find, hv]
  · intro k hn hk
    rw [restorePeers_find, hn]
    cases hf : h.savePeers.find? (fun t => t.id == k) with
    | none =>
      rw [List.mem_map] at hk
      obtain ⟨t, ht, htk⟩ := hk
      have := List.find?_eq_none.mp hf t ht
      simp [htk] at this
    | some t =>
      have hm := List.mem_of_find?_eq_some hf
      have hid := List.find?_some hf
      obtain ⟨e, he, p, hp, ho, hport, rfl⟩ := (savePeers_mem h t).mp hm
      refine ⟨e, he, p, hp, ho, hport, by simpa using hid, ?_⟩
      simp
/-! ### Peer gossip -/

theorem effectiveEndpoint_fst (isPrivateAddress : Nat → Bool) (h : Host) (j : Session) :
    (effectiveEndpoint isPrivateAddress h j).1 = gossipEndpoint isPrivateAddress h j := by
  unfold effectiveEndpoint gossipEndpoint peerOnNet StdMap.count
  cases hf : StdMap.find h.m_incomingPeers j.m_id <;>
    cases hp : isPrivateAddress j.endpoint.address <;>
    cases hl : h.localNetworking <;>
    by_cases h0 : j.m_listenPort = 0 <;> simp [h0, hp]

theorem effectiveEndpoint_snd (isPrivateAddress : Nat → Bool) (h : Host) (j : Session) :
    (effectiveEndpoint isPrivateAddress h j).2 = true ↔
      (j.m_listenPort ≠ 0 ∧
        (isPrivateAddress (gossipEndpoint isPrivateAddress h j).address = false ∨
          h.localNetworking = true)) := by
  unfold effectiveEndpoint gossipEndpoint peerOnNet StdMap.count
  cases hf : StdMap.find h.m_incomingPeers j.m_id <;>
    cases hp : isPrivateAddress j.endpoint.address <;>
    cases hl : h.localNetworking <;>
    by_cases h0 : j.m_listenPort = 0 <;> simp [h0, hp]

theorem potentialPeers_fold_skip (isPrivateAddress : Nat → Bool) (h : Host)
    (l : List (NodeId × Option Session)) (ret : List (NodeId × Endpoint)) (k : NodeId)
    (hk : k ∉ l.map Prod.fst) :
    StdMap.find (l.foldl (potentialPeersStep isPrivateAddress h) ret) k = StdMap.find ret k := by
  induction l generalizing ret with
  | nil => rfl
  | cons e rest ih =>
    simp only [List.map_cons, List.mem_cons, not_or] at hk
    rw [List.foldl_cons, ih _ hk.2]
    unfold potentialPeersStep
    cases e.2 with
    | none => rfl
    | some j =>
      simp only
      split
      · exact StdMap.find_insert_ne _ _ _ _ hk.1
      · rfl

theorem potentialPeers_fold_mem (isPrivateAddress : Nat → Bool) (h : Host)
    (l : List (NodeId × Option Session)) (ret : List (NodeId × Endpoint)) (k : NodeId)
    (j : Session) (hnd : (l.map Prod.fst).Nodup) (hmem : (k, some j) ∈ l)
    (hret : StdMap.find ret k = none) :
    StdMap.find (l.foldl (potentialPeersStep isPrivateAddress h) ret) k =
      if ((effectiveEndpoint isPrivateAddress h j).2
          && (effectiveEndpoint isPrivateAddress h j).1.port != 0 && j.m_id != 0) = true
      then some (effectiveEndpoint isPrivateAddress h j).1 else none := by
  induction l generalizing ret with
  | nil => cases hmem
  | cons e rest ih =>
    simp only [List.map_cons, List.nodup_cons] at hnd
    rw [List.foldl_cons]
    rcases List.mem_cons.mp hmem with he | hin
    · subst he
      rw [potentialPeers_fold_skip _ _ _ _ _ hnd.1]
      simp only [potentialPeersStep]
      split
      · exact StdMap.find_insert_self _ _ _ hret
      · exact hret
    · have hne : k ≠ e.1 := by
        intro hk
        apply hnd.1
        rw [← hk]
        exact List.mem_map.mpr ⟨(k, some j), hin, rfl⟩
      apply ih _ hnd.2 hin
      unfold potentialPeersStep
      cases e.2 with
      | none => exact hret
      | some j' =>
        simp only
        split
        · rw [StdMap.find_insert_ne _ _ _ _ hne]; exact hret
        · exact hret

/-- C3 (amended): in a peer map with distinct keys, a live peer other than the
host's own id is in the result of `Host::potentialPeers()` with endpoint `ep`
exactly when `ep` is its gossip endpoint (the session's endpoint, or the one
remembered in the IncomingPeer table when the session's is unusable and the
table has an entry), its advertised listen port is non-zero, `ep` is
non-private or local networking is enabled, and in addition the port of `ep`
is non-zero and the session's NodeId is not null. -/
theorem C3_potentialPeers (isPrivateAddress : Nat → Bool) (h : Host)
    (hnd : (h.m_peers.map Prod.fst).Nodup) (k : NodeId) (j : Session)
    (hmem : (k, some j) ∈ h.m_peers) (hk : k ≠ h.m_id) (ep : Endpoint) :
    StdMap.find (h.potentialPeers isPrivateAddress) k = some ep ↔
      (ep = gossipEndpoint isPrivateAddress h j ∧ j.m_listenPort ≠ 0 ∧
        (isPrivateAddress ep.address = false ∨ h.localNetworking = true) ∧
        ep.port ≠ 0 ∧ j.m_id ≠ 0) := by
  have hret : StdMap.find
      (if (h.m_public.address != 0) = true then StdMap.insert [] h.m_id h.m_public else []) k
      = none := by
    split
    · simp [StdMap.insert, StdMap.find, Ne.symm hk]
    · rfl
  unfold Host.potentialPeers
  simp only
  rw [potentialPeers_fold_mem isPrivateAddress h _ _ k j hnd hmem hret]
  have h1 := effectiveEndpoint_fst isPrivateAddress h j
  have h2 := effectiveEndpoint_snd isPrivateAddress h j
  rw [h1]
  constructor
  · intro hs
    split at hs
    · rename_i hc
      simp only [Bool.and_eq_true, bne_iff_ne, ne_eq, h1] at hc
      have he : gossipEndpoint isPrivateAddress h j = ep := Option.some.inj hs
      subst he
      exact ⟨rfl, (h2.mp hc.1.1).1, (h2.mp hc.1.1).2, hc.1.2, hc.2⟩
    · cases hs
  · rintro ⟨rfl, hl, hp, hport, hid⟩
    rw [if_pos]
    simp only [Bool.and_eq_true, bne_iff_ne, ne_eq, h1]
    exact ⟨⟨h2.mpr ⟨hl, hp⟩, hport⟩, hid⟩

/-- C3 as stated fails: the live peer 7 of `hostB` advertises listen port
30303 and its endpoint `0.0.0.0:0` is not private, yet it is not in the
result, because the port of its endpoint is zero. -/
theorem C3_counterexample :
    (7, some sessClosed) ∈ hostB.m_peers ∧ 7 ≠ hostB.m_id ∧
    ¬ ((StdMap.find (hostB.potentialPeers isPrivateV4) 7).isSome = true ↔
        (sessClosed.m_listenPort ≠ 0 ∧
          (isPrivateV4 (gossipEndpoint isPrivateV4 hostB sessClosed).address = false ∨
            hostB.localNetworking = true))) := by
  decide

theorem C3_potentialPeers_witness :
    (hostB.m_peers.map Prod.fst).Nodup ∧
    (8, some ⟨8, 30303, ⟨3232235777, 30303⟩, true, 0, 100⟩) ∈ hostB.m_peers ∧
    8 ≠ hostB.m_id ∧
    (StdMap.find (hostB.potentialPeers isPrivateV4) 8 = some ⟨16843009, 30305⟩ ↔
      ((⟨16843009, 30305⟩ : Endpoint) =
          gossipEndpoint isPrivateV4 hostB ⟨8, 30303, ⟨3232235777, 30303⟩, true, 0, 100⟩ ∧
        (30303 : Nat) ≠ 0 ∧
        (isPrivateV4 16843009 = false ∨ hostB.localNetworking = true) ∧
        (30305 : Nat) ≠ 0 ∧ (8 : Nat) ≠ 0)) :=
  ⟨by decide, by decide, by decide,
    C3_potentialPeers isPrivateV4 hostB (by decide) 8 _ (by decide) (by decide) ⟨16843009, 30305⟩⟩

/-! ### Growing the peer set -/

theorem requestPeers_fields (clock : Nat → Int) (getPeers : Bytes) (h : Host) :
    (h.requestPeers clock getPeers).m_peers = h.m_peers ∧
    (h.requestPeers clock getPeers).m_freePeers = h.m_freePeers ∧
    (h.requestPeers clock getPeers).m_incomingPeers = h.m_incomingPeers := by
  unfold Host.requestPeers Host.ensureAccepting
  simp only
  split <;> split <;> (try split) <;> simp

theorem dialFreePeer_fields (t : Nat) (h : Host) :
    (h.dialFreePeer t).m_peers = h.m_peers ∧
    (h.dialFreePeer t).m_idealPeerCount = h.m_idealPeerCount ∧
    (h.dialFreePeer t).m_freePeers = h.m_freePeers.eraseIdx (t % h.m_freePeers.length) ∧
    (h.dialFreePeer t).m_incomingPeers =
      StdMap.modify
        (StdMap.insert h.m_incomingPeers (h.m_freePeers.getD (t % h.m_freePeers.length) 0)
          (⟨0, 0⟩, 0))
        (h.m_freePeers.getD (t % h.m_freePeers.length) 0)
        (fun v => (v.1, (v.2 + 1) % 2 ^ 32)) := by
  unfold Host.dialFreePeer Host.connect
  simp only
  split <;> (try split) <;> simp

theorem growPeers_succ (clock : Nat → Int) (time : Nat → Nat) (getPeers : Bytes)
    (fuel n : Nat) (h : Host) :
    Host.growPeers clock time getPeers (fuel + 1) n h =
      if h.m_peers.length < h.m_idealPeerCount then
        if h.m_freePeers.isEmpty then some (h.requestPeers clock getPeers)
        else Host.growPeers clock time getPeers fuel (n + 1) (h.dialFreePeer (time n))
      else some h := rfl

theorem growPeers_peers (clock : Nat → Int) (time : Nat → Nat) (getPeers : Bytes) :
    ∀ fuel n h r, Host.growPeers clock time getPeers fuel n h = some r →
      r.m_peers = h.m_peers := by
  intro fuel
  induction fuel with
  | zero => intro n h r hr; cases hr
  | succ f ih =>
    intro n h r hr
    rw [growPeers_succ] at hr
    split at hr
    · split at hr
      · cases hr; exact (requestPeers_fields clock getPeers h).1
      · rw [ih _ _ _ hr]; exact (dialFreePeer_fields _ h).1
    · cases hr; rfl

theorem growPeers_drain (clock : Nat → Int) (time : Nat → Nat) (getPeers : Bytes) :
    ∀ m n h, h.m_freePeers.length = m → h.m_freePeers.Nodup →
      h.m_peers.length < h.m_idealPeerCount →
      (∀ x ∈ h.m_freePeers, ∃ ep, StdMap.find h.m_incomingPeers x = some (ep, 0)) →
      ∃ r, (∀ fuel, m < fuel → Host.growPeers clock time getPeers fuel n h = some r) ∧
        r.m_freePeers = [] ∧
        ∀ x, (x ∈ h.m_freePeers → ∃ ep, StdMap.find h.m_incomingPeers x = some (ep, 0) ∧
                StdMap.find r.m_incomingPeers x = some (ep, 1)) ∧
             (x ∉ h.m_freePeers →
                StdMap.find r.m_incomingPeers x = StdMap.find h.m_incomingPeers x) := by
  intro m
  induction m with
  | zero =>
    intro n h hlen _ hlt _
    have hnil : h.m_freePeers = [] := List.length_eq_zero.mp hlen
    refine ⟨h.requestPeers clock getPeers, ?_, ?_, ?_⟩
    · intro fuel hf
      obtain ⟨f, rfl⟩ : ∃ f, fuel = f + 1 := ⟨fuel - 1, by omega⟩
      rw [growPeers_succ, if_pos hlt, hnil]
      rfl
    · rw [(requestPeers_fields clock getPeers h).2.1, hnil]
    · intro x
      rw [(requestPeers_fields clock getPeers h).2.2, hnil]
      simp
  | succ m ih =>
    intro n h hlen hnd hlt hzero
    have hne : h.m_freePeers.isEmpty = false := by
      cases hf : h.m_freePeers with
      | nil => rw [hf] at hlen; simp at hlen
      | cons a l => rfl
    have hx : time n % h.m_freePeers.length < h.m_freePeers.length :=
      Nat.mod_lt _ (by omega)
    obtain ⟨hp, hi, hfr, hinc⟩ := dialFreePeer_fields (time n) h
    have hk : h.m_freePeers.getD (time n % h.m_freePeers.length) 0
        = h.m_freePeers[time n % h.m_freePeers.length] := List.getD_eq_getElem _ _ hx
    rw [hk] at hinc
    have hkmem : h.m_freePeers[time n % h.m_freePeers.length] ∈ h.m_freePeers :=
      List.getElem_mem _
    obtain ⟨epk, hepk⟩ := hzero _ hkmem
    rw [StdMap.insert_present _ _ _ _ hepk] at hinc
    have hfr' : (h.dialFreePeer (time n)).m_freePeers
        = h.m_freePeers.erase h.m_freePeers[time n % h.m_freePeers.length] := by
      rw [hfr, List.Nodup.erase_getElem hnd]
    have hfind : ∀ x, StdMap.find (h.dialFreePeer (time n)).m_incomingPeers x =
        if x = h.m_freePeers[time n % h.m_freePeers.length] then some (epk, 1)
        else StdMap.find h.m_incomingPeers x := by
      intro x
      rw [hinc, StdMap.find_modify, hepk]
      rfl
    obtain ⟨r, hr, hrf, hrx⟩ := ih (n + 1) (h.dialFreePeer (time n))
      (by rw [hfr, List.length_eraseIdx_of_lt hx, hlen]; rfl)
      (by rw [hfr']; exact hnd.erase _)
      (by rw [hp, hi]; exact hlt)
      (by
        intro x hxm
        rw [hfr', hnd.mem_erase_iff] at hxm
        rw [hfind, if_neg hxm.1]
        exact hzero x hxm.2)
    refine ⟨r, ?_, hrf, ?_⟩
    · intro fuel hf
      obtain ⟨f, rfl⟩ : ∃ f, fuel = f + 1 := ⟨fuel - 1, by omega⟩
      rw [growPeers_succ, if_pos hlt, hne]
      exact hr f (by omega)
    · intro x
      have hx1 := (hrx x).1
      have hx2 := (hrx x).2
      rw [hfr', hnd.mem_erase_iff] at hx1 hx2
      rw [hfind] at hx1 hx2
      by_cases hxk : x = h.m_freePeers[time n % h.m_freePeers.length]
      · rw [if_pos hxk] at hx2
        constructor
        · intro _
          exact ⟨epk, hxk ▸ hepk, hx2 (fun hh => hh.1 hxk)⟩
        · intro hnot
          exact absurd (hxk ▸ hkmem) hnot
      · rw [if_neg hxk] at hx1 hx2
        constructor
        · intro hxm
          exact hx1 ⟨hxk, hxm⟩
        · intro hnot
          exact hx2 (fun hh => hnot hh.2)
theorem restoreStep_fields (h : Host) (t : PeerTriple) :
    (restoreStep h t).m_peers = h.m_peers ∧
    (restoreStep h t).m_idealPeerCount = h.m_idealPeerCount := by
  unfold restoreStep
  simp only
  split <;> simp

theorem restorePeers_fields (b : List PeerTriple) (h : Host) :
    (h.restorePeers b).m_peers = h.m_peers ∧
    (h.restorePeers b).m_idealPeerCount = h.m_idealPeerCount := by
  induction b generalizing h with
  | nil => exact ⟨rfl, rfl⟩
  | cons t rest ih =>
    have := ih (restoreStep h t)
    simp only [Host.restorePeers, List.foldl_cons] at this ⊢
    rw [this.1, this.2]
    exact restoreStep_fields h t

theorem find?_id_of_nodup (b : List PeerTriple) (t : PeerTriple)
    (hnd : (b.map (fun t => t.id)).Nodup) (ht : t ∈ b) :
    b.find? (fun u => u.id == t.id) = some t := by
  induction b with
  | nil => cases ht
  | cons u rest ih =>
    simp only [List.map_cons, List.nodup_cons] at hnd
    rcases List.mem_cons.mp ht with rfl | hin
    · simp
    · have hne : u.id ≠ t.id := by
        intro he
        apply hnd.1
        rw [he]
        exact List.mem_map.mpr ⟨t, hin, rfl⟩
      rw [List.find?_cons]
      have hb : (u.id == t.id) = false := by simpa using hne
      rw [hb]
      exact ih hnd.2 hin

/-- C7: persist/restore.  On a host with an empty IncomingPeer table, an empty
free-peer queue and fewer peer-map entries than the ideal count, restoring a
blob of distinct NodeIds and then running `growPeers` once ends (whenever the
fuel exceeds the length of the blob) with the free-peer queue empty and every
item of the blob in `m_incomingPeers` with its endpoint and attempt-count
exactly 1, whatever values `time(0)` takes. -/
theorem C7_restore_then_grow (clock : Nat → Int) (time : Nat → Nat) (getPeers : Bytes)
    (h : Host) (b : List PeerTriple)
    (hinc : h.m_incomingPeers = []) (hfree : h.m_freePeers = [])
    (hlt : h.m_peers.length < h.m_idealPeerCount)
    (hnd : (b.map (fun t => t.id)).Nodup) :
    ∃ r, (∀ fuel, b.length < fuel →
        Host.growPeers clock time getPeers fuel 0 (h.restorePeers b) = some r) ∧
      r.m_freePeers = [] ∧
      ∀ t ∈ b, StdMap.find r.m_incomingPeers t.id = some (⟨t.address, t.port⟩, 1) := by
  obtain ⟨added, hadd, haddnd, hmem⟩ := restorePeers_free b h
  rw [hfree, List.nil_append] at hadd
  have hmem' : ∀ k, k ∈ added ↔ k ∈ b.map (fun t => t.id) := by
    intro k
    rw [hmem, hinc]
    simp [StdMap.find]
  have hfind : ∀ t ∈ b, StdMap.find (h.restorePeers b).m_incomingPeers t.id
      = some (⟨t.address, t.port⟩, 0) := by
    intro t ht
    rw [restorePeers_find, hinc]
    simp only [StdMap.find]
    rw [find?_id_of_nodup b t hnd ht]
    rfl
  have hlen : added.length ≤ b.length := by
    have := (List.subperm_of_subset haddnd (fun k hk => (hmem' k).mp hk)).length_le
    simpa using this
  obtain ⟨r, hr, hrf, hrx⟩ := growPeers_drain clock time getPeers added.length 0
    (h.restorePeers b) (by rw [hadd]) (by rw [hadd]; exact haddnd)
    (by rw [(restorePeers_fields b h).1, (restorePeers_fields b h).2]; exact hlt)
    (by
      intro x hx
      rw [hadd, hmem', List.mem_map] at hx
      obtain ⟨t, ht, rfl⟩ := hx
      exact ⟨_, hfind t ht⟩)
  refine ⟨r, fun fuel hf => hr fuel (by omega), hrf, ?_⟩
  intro t ht
  have hin : t.id ∈ (h.restorePeers b).m_freePeers := by
    rw [hadd, hmem']
    exact List.mem_map.mpr ⟨t, ht, rfl⟩
  obtain ⟨ep, h0, h1⟩ := (hrx t.id).1 hin
  rw [hfind t ht] at h0
  cases h0
  exact h1

theorem C7_restore_then_grow_witness :
    hostF.m_incomingPeers = [] ∧ hostF.m_freePeers = [] ∧
    hostF.m_peers.length < hostF.m_idealPeerCount ∧
    (blobF.map (fun t => t.id)).Nodup ∧
    ∃ r, (∀ fuel, blobF.length < fuel →
        Host.growPeers clockS timeS [0xc1, 4] fuel 0 (hostF.restorePeers blobF) = some r) ∧
      r.m_freePeers = [] ∧
      ∀ t ∈ blobF, StdMap.find r.m_incomingPeers t.id = some (⟨t.address, t.port⟩, 1) :=
  ⟨rfl, rfl, by decide, by decide,
    C7_restore_then_grow clockS timeS [0xc1, 4] hostF blobF rfl rfl (by decide) (by decide)⟩
/-! ### Pruning: the scan for the worst peer -/

theorem isAged_iff (now : Int) (old : Nat) (p : Session) :
    isAged now old p = true ↔ now > p.m_connect + (old : Int) := by
  simp [isAged]

theorem liveCount_concat (pre : List (NodeId × Option Session)) (e : NodeId × Option Session) :
    liveCount (pre ++ [e]) = liveCount pre + if e.2.isSome then 1 else 0 := by
  simp [liveCount, List.countP_append, List.countP_cons]

theorem liveCount_cons (e : NodeId × Option Session) (l : List (NodeId × Option Session)) :
    liveCount (e :: l) = liveCount l + if e.2.isSome then 1 else 0 := by
  simp [liveCount, List.countP_cons]

theorem agedCount_cons_none (clock : Nat → Int) (old t : Nat) (k : NodeId)
    (rest : List (NodeId × Option Session)) :
    agedCount clock old t ((k, none) :: rest) = agedCount clock old t rest := rfl

theorem agedCount_cons_some (clock : Nat → Int) (old t : Nat) (k : NodeId) (p : Session)
    (rest : List (NodeId × Option Session)) :
    agedCount clock old t ((k, some p) :: rest) =
      (if clock t > p.m_connect + (old : Int) then 1 else 0)
        + agedCount clock old (t + 1) rest := rfl

theorem agedCount_concat (clock : Nat → Int) (old : Nat) (pre : List (NodeId × Option Session))
    (e : NodeId × Option Session) (t0 : Nat) :
    agedCount clock old t0 (pre ++ [e]) = agedCount clock old t0 pre +
      match e.2 with
      | some p => if clock (t0 + liveCount pre) > p.m_connect + (old : Int) then 1 else 0
      | none => 0 := by
  induction pre generalizing t0 with
  | nil =>
    obtain ⟨k, _ | p⟩ := e <;> simp [agedCount, liveCount]
  | cons e0 rest ih =>
    obtain ⟨k0, _ | p0⟩ := e0
    · have hl : liveCount ((k0, none) :: rest) = liveCount rest := by
        simp [liveCount_cons]
      rw [List.cons_append, agedCount_cons_none, agedCount_cons_none, ih, hl]
    · have hl : t0 + liveCount ((k0, some p0) :: rest) = t0 + 1 + liveCount rest := by
        simp [liveCount_cons]; omega
      rw [List.cons_append, agedCount_cons_some, agedCount_cons_some, ih, hl]
      omega

theorem getElem?_concat_cases (pre : List (NodeId × Option Session))
    (e x : NodeId × Option Session) (j : Nat) (h : (pre ++ [e])[j]? = some x) :
    (pre[j]? = some x ∧ (pre ++ [e]).take j = pre.take j) ∨
    (j = pre.length ∧ e = x ∧ (pre ++ [e]).take j = pre) := by
  by_cases hj : j < pre.length
  · left
    rw [List.getElem?_append_left hj] at h
    exact ⟨h, List.take_append_of_le_length (le_of_lt hj)⟩
  · right
    rw [List.getElem?_append_right (by omega)] at h
    have hj0 : j - pre.length = 0 := by
      by_contra hne
      rw [List.getElem?_eq_none (by simp; omega)] at h
      cases h
    rw [hj0] at h
    have hje : j = pre.length := by omega
    refine ⟨hje, by simpa using h, ?_⟩
    rw [hje, List.take_append_of_le_length (le_refl _), List.take_length]

theorem scanStep_inv (clock : Nat → Int) (old t0 : Nat) (pre : List (NodeId × Option Session))
    (acc : Option (Nat × NodeId × Session) × Nat) (t : Nat) (e : NodeId × Option Session)
    (hinv : ScanInv clock old t0 pre acc t) :
    ScanInv clock old t0 (pre ++ [e]) (scanStep clock old acc t pre.length e).1
      (scanStep clock old acc t pre.length e).2 := by
  obtain ⟨ht, hc, hn, hs⟩ := hinv
  obtain ⟨k, wp⟩ := e
  have hmono : ∀ w : Nat × NodeId × Session, pre[w.1]? = some (w.2.1, some w.2.2) →
      (pre ++ [(k, wp)])[w.1]? = some (w.2.1, some w.2.2) ∧
      (pre ++ [(k, wp)]).take w.1 = pre.take w.1 := by
    intro w hw
    have hlt : w.1 < pre.length := by
      by_contra hge
      rw [List.getElem?_eq_none (by omega)] at hw
      cases hw
    exact ⟨by rw [List.getElem?_append_left hlt]; exact hw,
      List.take_append_of_le_length (le_of_lt hlt)⟩
  cases wp with
  | none =>
    refine ⟨?_, ?_, ?_, ?_⟩
    · simp only [scanStep, liveCount_concat]; simpa using ht
    · simp only [scanStep, agedCount_concat]; simpa using hc
    · intro h0 j k' q hj
      simp only [scanStep] at h0
      rcases getElem?_concat_cases pre _ _ j hj with ⟨h1, h2⟩ | ⟨_, h2, _⟩
      · rw [h2]; exact hn h0 j k' q h1
      · cases h2
    · intro w hw
      simp only [scanStep] at hw
      obtain ⟨h1, h2, h3⟩ := hs w hw
      refine ⟨(hmono w h1).1, by rw [(hmono w h1).2]; exact h2, ?_⟩
      intro j k' q hj hag
      rcases getElem?_concat_cases pre _ _ j hj with ⟨h4, h5⟩ | ⟨_, h5, _⟩
      · rw [h5] at hag; exact h3 j k' q h4 hag
      · cases h5
  | some p =>
    have hnew : (pre ++ [(k, some p)])[pre.length]? = some (k, some p) := by simp
    have htake : (pre ++ [(k, some p)]).take pre.length = pre := by
      rw [List.take_append_of_le_length (le_refl _), List.take_length]
    have hlive : t0 + liveCount (pre ++ [(k, some p)]) = t + 1 := by
      rw [liveCount_concat, ht]; simp; omega
    by_cases hag : isAged (clock t) old p = true
    · have hag' : clock (t0 + liveCount pre) > p.m_connect + (old : Int) := by
        rw [← ht]; exact (isAged_iff _ _ _).mp hag
      have hcount : (acc.2 + 1) % 2 ^ 32
          = agedCount clock old t0 (pre ++ [(k, some p)]) % 2 ^ 32 := by
        rw [agedCount_concat, hc]; simp only [if_pos hag']; omega
      cases hw : acc.1 with
      | none =>
        refine ⟨?_, ?_, ?_, ?_⟩
        · simp only [scanStep, hag, hw, if_true]; exact hlive.symm
        · simp only [scanStep, hag, hw, if_true]; exact hcount
        · intro h0; simp [scanStep, hag, hw] at h0
        · intro w hw'
          simp only [scanStep, hag, hw, if_true, Option.some.injEq] at hw'
          subst hw'
          refine ⟨hnew, by rw [htake]; exact hag', ?_⟩
          intro j k' q hj hq
          rcases getElem?_concat_cases pre _ _ j hj with ⟨h4, h5⟩ | ⟨_, h5, _⟩
          · rw [h5] at hq; exact absurd hq (hn hw j k' q h4)
          · cases h5
            exact ⟨le_refl _, fun _ => le_refl _⟩
      | some w0 =>
        obtain ⟨h1, h2, h3⟩ := hs w0 hw
        by_cases hb : (decide (p.m_rating < w0.2.2.m_rating)
            || (p.m_rating == w0.2.2.m_rating && decide (p.m_connect > w0.2.2.m_connect))) = true
        · refine ⟨?_, ?_, ?_, ?_⟩
          · simp only [scanStep, hag, hw, if_true, hb]; exact hlive.symm
          · simp only [scanStep, hag, hw, if_true, hb]; exact hcount
          · intro h0; simp [scanStep, hag, hw, hb] at h0
          · intro w hw'
            simp only [scanStep, hag, hw, if_true, hb, Option.some.injEq] at hw'
            subst hw'
            refine ⟨hnew, by rw [htake]; exact hag', ?_⟩
            simp only [Bool.or_eq_true, decide_eq_true_eq, Bool.and_eq_true, beq_iff_eq] at hb
            intro j k' q hj hq
            rcases getElem?_concat_cases pre _ _ j hj with ⟨h4, h5⟩ | ⟨_, h5, _⟩
            · rw [h5] at hq
              have := h3 j k' q h4 hq
              dsimp only
              constructor
              · rcases hb with hb | hb <;> omega
              · intro heq
                rcases hb with hb | hb
                · omega
                · have := this.2 (by omega); omega
            · cases h5
              exact ⟨le_refl _, fun _ => le_refl _⟩
        · have hbf := Bool.eq_false_iff.mpr hb
          refine ⟨?_, ?_, ?_, ?_⟩
          · simp only [scanStep, hag, hw, if_true, hbf, Bool.false_eq_true, if_false]
            exact hlive.symm
          · simp only [scanStep, hag, hw, if_true, hbf, Bool.false_eq_true, if_false]
            exact hcount
          · intro h0; simp [scanStep, hag, hw, hbf] at h0
          · intro w hw'
            simp only [scanStep, hag, hw, if_true, hbf, Bool.false_eq_true, if_false,
              Option.some.injEq] at hw'
            subst hw'
            refine ⟨(hmono _ h1).1, by rw [(hmono _ h1).2]; exact h2, ?_⟩
            simp only [Bool.or_eq_true, decide_eq_true_eq, Bool.and_eq_true, beq_iff_eq,
              not_or, not_and, not_lt] at hb
            intro j k' q hj hq
            rcases getElem?_concat_cases pre _ _ j hj with ⟨h4, h5⟩ | ⟨_, h5, _⟩
            · rw [h5] at hq; exact h3 j k' q h4 hq
            · cases h5
              constructor
              · omega
              · intro heq
                have := hb.2 heq; omega
    · have hagf : isAged (clock t) old p = false := by simpa using hag
      have hag' : ¬ clock (t0 + liveCount pre) > p.m_connect + (old : Int) := by
        rw [← ht]; exact fun hh => hag ((isAged_iff _ _ _).mpr hh)
      refine ⟨?_, ?_, ?_, ?_⟩
      · simp only [scanStep, hagf, Bool.false_eq_true, if_false]; exact hlive.symm
      · simp only [scanStep, hagf, Bool.false_eq_true, if_false, agedCount_concat,
          if_neg hag']
        simpa using hc
      · intro h0 j k' q hj
        simp only [scanStep, hagf, Bool.false_eq_true, if_false] at h0
        rcases getElem?_concat_cases pre _ _ j hj with ⟨h4, h5⟩ | ⟨_, h5, h6⟩
        · rw [h5]; exact hn h0 j k' q h4
        · cases h5; rw [h6]; exact hag'
      · intro w hw
        simp only [scanStep, hagf, Bool.false_eq_true, if_false] at hw
        obtain ⟨h1, h2, h3⟩ := hs w hw
        refine ⟨(hmono w h1).1, by rw [(hmono w h1).2]; exact h2, ?_⟩
        intro j k' q hj hq
        rcases getElem?_concat_cases pre _ _ j hj with ⟨h4, h5⟩ | ⟨_, h5, h6⟩
        · rw [h5] at hq; exact h3 j k' q h4 hq
        · cases h5; rw [h6] at hq; exact absurd hq hag'

theorem scanFrom_inv (clock : Nat → Int) (old t0 : Nat) (l pre : List (NodeId × Option Session))
    (acc : Option (Nat × NodeId × Session) × Nat) (t : Nat)
    (hinv : ScanInv clock old t0 pre acc t) :
    ScanInv clock old t0 (pre ++ l) (scanFrom clock old pre.length t l acc).1
      (scanFrom clock old pre.length t l acc).2 := by
  induction l generalizing pre acc t with
  | nil => simpa [scanFrom] using hinv
  | cons e rest ih =>
    have := ih (pre ++ [e]) _ _ (scanStep_inv clock old t0 pre acc t e hinv)
    simpa [scanFrom] using this

theorem scanPeers_inv (clock : Nat → Int) (old t : Nat) (peers : List (NodeId × Option Session)) :
    ScanInv clock old t peers (scanPeers clock old t peers).1 (scanPeers clock old t peers).2 := by
  have h0 : ScanInv clock old t [] (none, 0) t := by
    refine ⟨by simp [liveCount], by simp [agedCount], ?_, fun w hw => by cases hw⟩
    intro _ j k q hj
    simp at hj
  simpa [scanPeers] using scanFrom_inv clock old t peers [] (none, 0) t h0
theorem scanPeers_aged_le (clock : Nat → Int) (old t : Nat)
    (peers : List (NodeId × Option Session)) :
    (scanPeers clock old t peers).1.2 ≤ agedCount clock old t peers := by
  rw [(scanPeers_inv clock old t peers).2.1]
  exact Nat.mod_le _ _

theorem scanPeers_readings (clock : Nat → Int) (old t : Nat)
    (peers : List (NodeId × Option Session)) :
    (scanPeers clock old t peers).2 = t + liveCount peers :=
  (scanPeers_inv clock old t peers).1

theorem scanPeers_worst (clock : Nat → Int) (old t : Nat)
    (peers : List (NodeId × Option Session))
    (w : Nat × NodeId × Session) (aged t' : Nat)
    (hs : scanPeers clock old t peers = ((some w, aged), t')) :
    peers[w.1]? = some (w.2.1, some w.2.2) ∧
    clock (t + liveCount (peers.take w.1)) > w.2.2.m_connect + (old : Int) ∧
    ∀ j k q, peers[j]? = some (k, some q) →
      clock (t + liveCount (peers.take j)) > q.m_connect + (old : Int) →
      w.2.2.m_rating ≤ q.m_rating ∧
      (q.m_rating = w.2.2.m_rating → q.m_connect ≤ w.2.2.m_connect) :=
  (scanPeers_inv clock old t peers).2.2.2 w (by rw [hs])

theorem liveCount_set_dead (peers : List (NodeId × Option Session)) (idx : Nat) (k : NodeId)
    (s : Session) (h : peers[idx]? = some (k, some s)) :
    liveCount (peers.set idx (k, none)) + 1 = liveCount peers := by
  induction peers generalizing idx with
  | nil => simp at h
  | cons e rest ih =>
    cases idx with
    | zero =>
      simp at h; subst h
      simp [liveCount, List.countP_cons]
    | succ i =>
      simp at h
      have := ih i h
      simp only [liveCount, List.set_cons_succ, List.countP_cons] at this ⊢
      omega

theorem evict_refl (Q : NodeId → Session → Prop) (p : List (NodeId × Option Session)) :
    List.Forall₂ (EvictRel Q) p p := by
  induction p with
  | nil => exact List.Forall₂.nil
  | cons e rest ih => exact List.Forall₂.cons (Or.inl rfl) ih

theorem evict_set (Q : NodeId → Session → Prop) (p : List (NodeId × Option Session))
    (idx : Nat) (k : NodeId) (s : Session) (h : p[idx]? = some (k, some s)) (hq : Q k s) :
    List.Forall₂ (EvictRel Q) p (p.set idx (k, none)) := by
  induction p generalizing idx with
  | nil => simp at h
  | cons e rest ih =>
    cases idx with
    | zero =>
      simp at h; subst h
      exact List.Forall₂.cons (Or.inr ⟨s, rfl, rfl, hq⟩) (evict_refl Q rest)
    | succ i =>
      simp at h
      exact List.Forall₂.cons (Or.inl rfl) (ih i h)

theorem evict_trans (Q : NodeId → Session → Prop) (a b c : List (NodeId × Option Session))
    (hab : List.Forall₂ (EvictRel Q) a b) (hbc : List.Forall₂ (EvictRel Q) b c) :
    List.Forall₂ (EvictRel Q) a c := by
  induction hab generalizing c with
  | nil => cases hbc; exact List.Forall₂.nil
  | cons hxy _ ih =>
    cases hbc with
    | cons hyz hrest =>
      refine List.Forall₂.cons ?_ (ih _ hrest)
      rcases hxy with rfl | ⟨s, hs, rfl, hq⟩
      · exact hyz
      · rcases hyz with rfl | ⟨s', hs', _, _⟩
        · exact Or.inr ⟨s, hs, rfl, hq⟩
        · cases hs'

theorem evict_mono (Q Q' : NodeId → Session → Prop) (hQ : ∀ k s, Q k s → Q' k s)
    (a b : List (NodeId × Option Session)) (hab : List.Forall₂ (EvictRel Q) a b) :
    List.Forall₂ (EvictRel Q') a b := by
  refine List.Forall₂.imp ?_ hab
  rintro x y (rfl | ⟨s, hs, rfl, hq⟩)
  · exact Or.inl rfl
  · exact Or.inr ⟨s, hs, rfl, hQ _ _ hq⟩

theorem evict_live_sub (Q : NodeId → Session → Prop) (a b : List (NodeId × Option Session))
    (hab : List.Forall₂ (EvictRel Q) a b) :
    ∀ e ∈ b, e.2.isSome = true → e ∈ a := by
  induction hab with
  | nil => intro e he; cases he
  | cons hxy _ ih =>
    intro e he hl
    rcases List.mem_cons.mp he with rfl | he
    · rcases hxy with rfl | ⟨s, _, rfl, _⟩
      · exact List.mem_cons_self _ _
      · cases hl
    · exact List.mem_cons_of_mem _ (ih e he hl)

theorem evict_liveCount (Q : NodeId → Session → Prop) (a b : List (NodeId × Option Session))
    (hab : List.Forall₂ (EvictRel Q) a b) : liveCount b ≤ liveCount a := by
  induction hab with
  | nil => exact le_refl _
  | cons hxy _ ih =>
    simp only [liveCount, List.countP_cons] at ih ⊢
    rcases hxy with rfl | ⟨s, hs, rfl, _⟩
    · omega
    · simp [hs]; omega

theorem evict_mem_left (Q : NodeId → Session → Prop) (a b : List (NodeId × Option Session))
    (hab : List.Forall₂ (EvictRel Q) a b) :
    ∀ d ∈ a, ∃ d' ∈ b, EvictRel Q d d' := by
  induction hab with
  | nil => intro d hd; cases hd
  | cons hxy _ ih =>
    intro d hd
    rcases List.mem_cons.mp hd with rfl | hd
    · exact ⟨_, List.mem_cons_self _ _, hxy⟩
    · obtain ⟨d', hd', hr⟩ := ih d hd
      exact ⟨d', List.mem_cons_of_mem _ hd', hr⟩

theorem scanStep_none_zero (clock : Nat → Int) (old : Nat)
    (acc : Option (Nat × NodeId × Session) × Nat) (t idx : Nat) (i : NodeId × Option Session)
    (hz : acc.1 = none → acc.2 = 0) :
    (scanStep clock old acc t idx i).1.1 = none → (scanStep clock old acc t idx i).1.2 = 0 := by
  unfold scanStep
  cases i.2 with
  | none => exact hz
  | some p =>
    simp only
    split
    · cases acc.1 with
      | none => intro h0; cases h0
      | some w =>
        simp only
        split <;> (intro h0; cases h0)
    · exact hz

theorem scanFrom_none_zero (clock : Nat → Int) (old : Nat) (l : List (NodeId × Option Session))
    (acc : Option (Nat × NodeId × Session) × Nat) (t idx : Nat)
    (hz : acc.1 = none → acc.2 = 0) :
    (scanFrom clock old idx t l acc).1.1 = none → (scanFrom clock old idx t l acc).1.2 = 0 := by
  induction l generalizing acc t idx with
  | nil => exact hz
  | cons e rest ih =>
    exact ih _ _ _ (scanStep_none_zero clock old acc t idx e hz)

theorem scanPeers_none_zero (clock : Nat → Int) (old t : Nat)
    (peers : List (NodeId × Option Session)) :
    (scanPeers clock old t peers).1.1 = none → (scanPeers clock old t peers).1.2 = 0 :=
  scanFrom_none_zero clock old peers (none, 0) t 0 (fun _ => rfl)
theorem pruneWhile_succ (clock : Nat → Int) (old fuel t : Nat) (h : Host) :
    Host.pruneWhile clock old (fuel + 1) t h =
      if h.m_peers.length > h.m_idealPeerCount then
        match scanPeers clock old t h.m_peers with
        | ((none, _), t') => some (h, t')
        | ((some worst, agedPeers), t') =>
          if agedPeers ≤ h.m_idealPeerCount then some (h, t')
          else Host.pruneWhile clock old fuel t'
            (h.disconnect worst.1 worst.2.1 DisconnectReason.TooManyPeers)
      else some (h, t) := rfl

theorem pruneFor_succ (clock : Nat → Int) (fuel old t : Nat) (h : Host) :
    Host.pruneFor clock (fuel + 1) old t h =
      if h.m_peers.length > h.m_idealPeerCount * 2 % 2 ^ 32 ∧ old > 100 then
        match Host.pruneWhile clock old (fuel + 1) t h with
        | some r => Host.pruneFor clock fuel (old / 2) r.2 r.1
        | none => none
      else some (h, t) := rfl

/-- Partial correctness of the inner loop: a relation that is reflexive,
transitive and established by every eviction holds between the host at entry
and the host at exit. -/
theorem pruneWhile_rel (clock : Nat → Int) (old : Nat) (P : Host → Prop) (R : Host → Host → Prop)
    (hrefl : ∀ h, R h h) (htrans : ∀ a b c, R a b → R b c → R a c)
    (hstep : ∀ t h w aged t', P h → h.m_idealPeerCount < h.m_peers.length →
      scanPeers clock old t h.m_peers = ((some w, aged), t') → h.m_idealPeerCount < aged →
      P (h.disconnect w.1 w.2.1 DisconnectReason.TooManyPeers) ∧
      R h (h.disconnect w.1 w.2.1 DisconnectReason.TooManyPeers)) :
    ∀ fuel t h r, P h → Host.pruneWhile clock old fuel t h = some r → R h r.1 ∧ P r.1 := by
  intro fuel
  induction fuel with
  | zero => intro t h r _ hr; cases hr
  | succ f ih =>
    intro t h r hP hr
    rw [pruneWhile_succ] at hr
    by_cases hc : h.m_peers.length > h.m_idealPeerCount
    · rw [if_pos hc] at hr
      rcases hsc : scanPeers clock old t h.m_peers with ⟨⟨_ | w, aged⟩, t'⟩
      · rw [hsc] at hr
        cases hr; exact ⟨hrefl h, hP⟩
      · rw [hsc] at hr
        simp only at hr
        by_cases ha : aged ≤ h.m_idealPeerCount
        · rw [if_pos ha] at hr
          cases hr; exact ⟨hrefl h, hP⟩
        · rw [if_neg ha] at hr
          obtain ⟨hP1, hR1⟩ := hstep t h w aged t' hP hc hsc (by omega)
          obtain ⟨hR2, hP2⟩ := ih _ _ r hP1 hr
          exact ⟨htrans _ _ _ hR1 hR2, hP2⟩
    · rw [if_neg hc] at hr
      cases hr; exact ⟨hrefl h, hP⟩

theorem pruneFor_rel (clock : Nat → Int) (B : Nat) (P : Host → Prop) (R : Host → Host → Prop)
    (hrefl : ∀ h, R h h) (htrans : ∀ a b c, R a b → R b c → R a c)
    (hstep : ∀ old t h w aged t', old ≤ B → P h → h.m_idealPeerCount < h.m_peers.length →
      scanPeers clock old t h.m_peers = ((some w, aged), t') → h.m_idealPeerCount < aged →
      P (h.disconnect w.1 w.2.1 DisconnectReason.TooManyPeers) ∧
      R h (h.disconnect w.1 w.2.1 DisconnectReason.TooManyPeers)) :
    ∀ fuel old t h r, old ≤ B → P h → Host.pruneFor clock fuel old t h = some r →
      R h r.1 ∧ P r.1 := by
  intro fuel
  induction fuel with
  | zero => intro old t h r _ _ hr; cases hr
  | succ f ih =>
    intro old t h r hB hP hr
    rw [pruneFor_succ] at hr
    by_cases hc : h.m_peers.length > h.m_idealPeerCount * 2 % 2 ^ 32 ∧ old > 100
    · rw [if_pos hc] at hr
      cases hw : Host.pruneWhile clock old (f + 1) t h with
      | none => rw [hw] at hr; cases hr
      | some r1 =>
        rw [hw] at hr
        simp only at hr
        obtain ⟨hR1, hP1⟩ := pruneWhile_rel clock old P R hrefl htrans
          (fun t h w aged t' => hstep old t h w aged t' hB) _ _ _ _ hP hw
        obtain ⟨hR2, hP2⟩ := ih (old / 2) _ _ r (le_trans (Nat.div_le_self _ _) hB) hP1 hr
        exact ⟨htrans _ _ _ hR1 hR2, hP2⟩
    · rw [if_neg hc] at hr
      cases hr; exact ⟨hrefl h, hP⟩

/-- What every eviction of the scan's `worst` does to the host. -/
theorem disconnect_worst (clock : Nat → Int) (old t : Nat) (h : Host)
    (w : Nat × NodeId × Session) (aged t' : Nat)
    (hs : scanPeers clock old t h.m_peers = ((some w, aged), t')) :
    liveCount (h.disconnect w.1 w.2.1 DisconnectReason.TooManyPeers).m_peers + 1
      = liveCount h.m_peers :=
  liveCount_set_dead _ _ _ _ (scanPeers_worst clock old t h.m_peers w aged t' hs).1

theorem pruneWhile_terminates (clock : Nat → Int) (old : Nat) :
    ∀ n t h, liveCount h.m_peers ≤ n →
      ∃ r, ∀ fuel, n < fuel → Host.pruneWhile clock old fuel t h = some r := by
  intro n
  induction n with
  | zero =>
    intro t h hn
    by_cases hc : h.m_peers.length > h.m_idealPeerCount
    · rcases hsc : scanPeers clock old t h.m_peers with ⟨⟨_ | w, aged⟩, t'⟩
      · refine ⟨(h, t'), fun fuel hf => ?_⟩
        obtain ⟨f, rfl⟩ : ∃ f, fuel = f + 1 := ⟨fuel - 1, by omega⟩
        rw [pruneWhile_succ, if_pos hc, hsc]
      · have := disconnect_worst clock old t h w aged t' hsc
        omega
    · refine ⟨(h, t), fun fuel hf => ?_⟩
      obtain ⟨f, rfl⟩ : ∃ f, fuel = f + 1 := ⟨fuel - 1, by omega⟩
      rw [pruneWhile_succ, if_neg hc]
  | succ n ih =>
    intro t h hn
    by_cases hc : h.m_peers.length > h.m_idealPeerCount
    · rcases hsc : scanPeers clock old t h.m_peers with ⟨⟨_ | w, aged⟩, t'⟩
      · refine ⟨(h, t'), fun fuel hf => ?_⟩
        obtain ⟨f, rfl⟩ : ∃ f, fuel = f + 1 := ⟨fuel - 1, by omega⟩
        rw [pruneWhile_succ, if_pos hc, hsc]
      · by_cases ha : aged ≤ h.m_idealPeerCount
        · refine ⟨(h, t'), fun fuel hf => ?_⟩
          obtain ⟨f, rfl⟩ : ∃ f, fuel = f + 1 := ⟨fuel - 1, by omega⟩
          rw [pruneWhile_succ, if_pos hc, hsc]
          simp only
          rw [if_pos ha]
        · have hl := disconnect_worst clock old t h w aged t' hsc
          obtain ⟨r, hr⟩ := ih t'
            (h.disconnect w.1 w.2.1 DisconnectReason.TooManyPeers) (by omega)
          refine ⟨r, fun fuel hf => ?_⟩
          obtain ⟨f, rfl⟩ : ∃ f, fuel = f + 1 := ⟨fuel - 1, by omega⟩
          rw [pruneWhile_succ, if_pos hc, hsc]
          simp only
          rw [if_neg ha]
          exact hr f (by omega)
    · refine ⟨(h, t), fun fuel hf => ?_⟩
      obtain ⟨f, rfl⟩ : ∃ f, fuel = f + 1 := ⟨fuel - 1, by omega⟩
      rw [pruneWhile_succ, if_neg hc]
theorem pruned_refl (h : Host) : Pruned h h :=
  ⟨rfl, [], by simp, evict_refl _ _⟩

theorem pruned_trans (a b c : Host) (hab : Pruned a b) (hbc : Pruned b c) : Pruned a c := by
  obtain ⟨hi1, l1, he1, hf1⟩ := hab
  obtain ⟨hi2, l2, he2, hf2⟩ := hbc
  refine ⟨hi2.trans hi1, l1 ++ l2, by rw [he2, he1, List.append_assoc], ?_⟩
  refine evict_trans _ _ _ _ (evict_mono _ _ ?_ _ _ hf1) (evict_mono _ _ ?_ _ _ hf2)
  · intro k _ hk; exact List.mem_append_left _ hk
  · intro k _ hk; exact List.mem_append_right _ hk

theorem pruned_step (clock : Nat → Int) (old t : Nat) (h : Host)
    (w : Nat × NodeId × Session) (aged t' : Nat)
    (hs : scanPeers clock old t h.m_peers = ((some w, aged), t')) :
    Pruned h (h.disconnect w.1 w.2.1 DisconnectReason.TooManyPeers) := by
  refine ⟨rfl, [Effect.disconnect w.2.1 DisconnectReason.TooManyPeers], rfl, ?_⟩
  exact evict_set _ _ _ _ _ (scanPeers_worst clock old t h.m_peers w aged t' hs).1 (by simp)

theorem pruneWhile_pruned (clock : Nat → Int) (old fuel t : Nat) (h : Host) (r : Host × Nat)
    (hr : Host.pruneWhile clock old fuel t h = some r) : Pruned h r.1 :=
  (pruneWhile_rel clock old (fun _ => True) Pruned pruned_refl pruned_trans
    (fun t h w aged t' _ _ hs _ => ⟨trivial, pruned_step clock old t h w aged t' hs⟩)
    fuel t h r trivial hr).1

theorem pruneFor_pruned (clock : Nat → Int) (fuel old t : Nat) (h : Host) (r : Host × Nat)
    (hr : Host.pruneFor clock fuel old t h = some r) : Pruned h r.1 :=
  (pruneFor_rel clock old (fun _ => True) Pruned pruned_refl pruned_trans
    (fun old t h w aged t' _ _ _ hs _ => ⟨trivial, pruned_step clock old t h w aged t' hs⟩)
    fuel old t h r (le_refl _) trivial hr).1

theorem pruned_liveCount (h r : Host) (hp : Pruned h r) :
    liveCount r.m_peers ≤ liveCount h.m_peers := by
  obtain ⟨_, l, _, hf⟩ := hp
  exact evict_liveCount _ _ _ hf

theorem pruned_length (h r : Host) (hp : Pruned h r) :
    r.m_peers.length = h.m_peers.length := by
  obtain ⟨_, l, _, hf⟩ := hp
  exact hf.length_eq.symm

theorem pruneFor_terminates (clock : Nat → Int) :
    ∀ n old t h, old ≤ 100 * 2 ^ n →
      ∃ r, ∀ fuel, liveCount h.m_peers + n < fuel →
        Host.pruneFor clock fuel old t h = some r := by
  intro n
  induction n with
  | zero =>
    intro old t h ho
    refine ⟨(h, t), fun fuel hf => ?_⟩
    obtain ⟨f, rfl⟩ : ∃ f, fuel = f + 1 := ⟨fuel - 1, by omega⟩
    rw [pruneFor_succ, if_neg (by omega)]
  | succ n ih =>
    intro old t h ho
    by_cases hc : h.m_peers.length > h.m_idealPeerCount * 2 % 2 ^ 32 ∧ old > 100
    · obtain ⟨r1, hr1⟩ := pruneWhile_terminates clock old (liveCount h.m_peers) t h (le_refl _)
      have hp := pruneWhile_pruned clock old _ t h r1 (hr1 _ (Nat.lt_succ_self _))
      have hl := pruned_liveCount _ _ hp
      obtain ⟨r2, hr2⟩ := ih (old / 2) r1.2 r1.1 (by rw [pow_succ] at ho; omega)
      refine ⟨r2, fun fuel hf => ?_⟩
      obtain ⟨f, rfl⟩ : ∃ f, fuel = f + 1 := ⟨fuel - 1, by omega⟩
      rw [pruneFor_succ, if_pos hc, hr1 (f + 1) (by omega)]
      exact hr2 f (by omega)
    · refine ⟨(h, t), fun fuel hf => ?_⟩
      obtain ⟨f, rfl⟩ : ∃ f, fuel = f + 1 := ⟨fuel - 1, by omega⟩
      rw [pruneFor_succ, if_neg hc]

theorem pruneFor_eq_seq (clock : Nat → Int) :
    ∀ n old fuelF fuelS t h, h.m_peers.length > h.m_idealPeerCount * 2 % 2 ^ 32 →
      old ≤ 100 * 2 ^ n → liveCount h.m_peers + n < fuelF → liveCount h.m_peers < fuelS →
      Host.pruneFor clock fuelF old t h = pruneSeq clock fuelS (thresholds (n + 1) old) t h := by
  intro n
  induction n with
  | zero =>
    intro old fuelF fuelS t h _ ho hF _
    obtain ⟨f, rfl⟩ : ∃ f, fuelF = f + 1 := ⟨fuelF - 1, by omega⟩
    rw [pruneFor_succ, if_neg (by omega)]
    simp only [thresholds]
    rw [if_neg (by omega)]
    rfl
  | succ n ih =>
    intro old fuelF fuelS t h hc ho hF hS
    obtain ⟨f, rfl⟩ : ∃ f, fuelF = f + 1 := ⟨fuelF - 1, by omega⟩
    by_cases h100 : old > 100
    · obtain ⟨r1, hr1⟩ := pruneWhile_terminates clock old (liveCount h.m_peers) t h (le_refl _)
      have hp := pruneWhile_pruned clock old _ t h r1 (hr1 _ (Nat.lt_succ_self _))
      have hl := pruned_liveCount _ _ hp
      have hlen := pruned_length _ _ hp
      have hid := hp.1
      rw [pruneFor_succ, if_pos ⟨hc, h100⟩, hr1 (f + 1) (by omega)]
      have hth : thresholds (n + 1 + 1) old = old :: thresholds (n + 1) (old / 2) := by
        rw [thresholds, if_pos h100]
      rw [hth, pruneSeq, hr1 fuelS hS]
      simp only
      exact ih (old / 2) f fuelS r1.2 r1.1 (by rw [hlen, hid]; exact hc)
        (by rw [pow_succ] at ho; omega) (by omega) (by omega)
    · rw [pruneFor_succ, if_neg (by omega)]
      have hth : thresholds (n + 1 + 1) old = [] := by
        rw [thresholds, if_neg h100]
      rw [hth]
      rfl
theorem liveCount_removeDead (p : List (NodeId × Option Session)) :
    liveCount (removeDead p) = liveCount p := by
  induction p with
  | nil => rfl
  | cons e rest ih =>
    simp only [liveCount, removeDead] at ih ⊢
    by_cases he : e.2.isSome = true
    · simp [List.filter_cons, he, List.countP_cons, ih]
    · simp [List.filter_cons, he, List.countP_cons, ih]

theorem thresholds_eq : thresholds 9 15000 = [15000, 7500, 3750, 1875, 937, 468, 234, 117] := by
  decide

/-- C5: peer eviction terminates.  For every clock and every host,
`Host::prunePeers` returns the same host for every fuel of at least the
number of live peers plus 9; the outer loop either does nothing or runs the
inner loop for the thresholds 15000, 7500, 3750, 1875, 937, 468, 234, 117 in
turn; every inner loop ends; and the number of live peers never increases:
every eviction lowers it by one, every inner loop and the whole call end with
at most as many live peers as they started with. -/
theorem C5_prunePeers_terminates (clock : Nat → Int) (h : Host) :
    ∃ r, (∀ fuel, liveCount h.m_peers + 9 ≤ fuel → h.prunePeers clock fuel = some r) ∧
      liveCount r.m_peers ≤ liveCount h.m_peers ∧
      (∀ fuel, liveCount h.m_peers + 9 ≤ fuel →
        Host.pruneFor clock fuel 15000 0 h =
          if h.m_peers.length > h.m_idealPeerCount * 2 % 2 ^ 32 then
            pruneSeq clock fuel [15000, 7500, 3750, 1875, 937, 468, 234, 117] 0 h
          else some (h, 0)) ∧
      (∀ (old t : Nat) (h1 : Host), ∃ r1, (∀ fuel, liveCount h1.m_peers < fuel →
          Host.pruneWhile clock old fuel t h1 = some r1) ∧
        liveCount r1.1.m_peers ≤ liveCount h1.m_peers) ∧
      (∀ (old t : Nat) (h1 : Host) w aged t',
        scanPeers clock old t h1.m_peers = ((some w, aged), t') →
        liveCount (h1.disconnect w.1 w.2.1 DisconnectReason.TooManyPeers).m_peers + 1
          = liveCount h1.m_peers) := by
  obtain ⟨r, hr⟩ := pruneFor_terminates clock 8 15000 0 h (by norm_num)
  have hp := pruneFor_pruned clock _ 15000 0 h r (hr _ (Nat.lt_succ_self _))
  refine ⟨{ r.1 with m_peers := removeDead r.1.m_peers }, ?_, ?_, ?_, ?_, ?_⟩
  · intro fuel hf
    rw [Host.prunePeers, hr fuel (by omega)]
  · simp only [liveCount_removeDead]
    exact pruned_liveCount _ _ hp
  · intro fuel hf
    by_cases hc : h.m_peers.length > h.m_idealPeerCount * 2 % 2 ^ 32
    · rw [if_pos hc, ← thresholds_eq]
      exact pruneFor_eq_seq clock 8 15000 fuel fuel 0 h hc (by norm_num) (by omega) (by omega)
    · rw [if_neg hc]
      obtain ⟨f, rfl⟩ : ∃ f, fuel = f + 1 := ⟨fuel - 1, by omega⟩
      rw [pruneFor_succ, if_neg (fun hh => hc hh.1)]
  · intro old t h1
    obtain ⟨r1, hr1⟩ := pruneWhile_terminates clock old (liveCount h1.m_peers) t h1 (le_refl _)
    exact ⟨r1, hr1, pruned_liveCount _ _
      (pruneWhile_pruned clock old _ t h1 r1 (hr1 _ (Nat.lt_succ_self _)))⟩
  · intro old t h1 w aged t' hs
    exact disconnect_worst clock old t h1 w aged t' hs

/-- Under identical ratings and sufficient age at every reading of the clock,
the sessions evicted by the outer loop connected no earlier than the sessions
that remain. -/
theorem pruneFor_newest_first (clock : Nat → Int) (rating : Int) (fuel : Nat) (h : Host)
    (r : Host × Nat)
    (hP : ∀ e ∈ h.m_peers, ∀ s, e.2 = some s →
      s.m_rating = rating ∧ ∀ t, clock t > s.m_connect + 15000)
    (hr : Host.pruneFor clock fuel 15000 0 h = some r) :
    List.Forall₂
      (EvictRel (fun _ s => ∀ e ∈ r.1.m_peers, ∀ q, e.2 = some q → q.m_connect ≤ s.m_connect))
      h.m_peers r.1.m_peers := by
  refine (pruneFor_rel clock 15000
    (fun h => ∀ e ∈ h.m_peers, ∀ s, e.2 = some s →
      s.m_rating = rating ∧ ∀ t, clock t > s.m_connect + 15000)
    (fun h r => List.Forall₂
      (EvictRel (fun _ s => ∀ e ∈ r.m_peers, ∀ q, e.2 = some q → q.m_connect ≤ s.m_connect))
      h.m_peers r.m_peers)
    (fun h => evict_refl _ _) ?_ ?_ fuel 15000 0 h r (le_refl _) hP hr).1
  · intro a b c hab hbc
    refine evict_trans _ _ _ _ (evict_mono _ _ ?_ _ _ hab) hbc
    intro _ s hq e he q hl
    exact hq e (evict_live_sub _ _ _ hbc e he (by simp [hl])) q hl
  · intro old t h w aged t' ho hPh _ hs _
    obtain ⟨hidx, _, hmin⟩ := scanPeers_worst clock old t h.m_peers w aged t' hs
    have hsub : ∀ e ∈ (h.disconnect w.1 w.2.1 DisconnectReason.TooManyPeers).m_peers,
        e.2.isSome = true → e ∈ h.m_peers :=
      evict_live_sub _ _ _ (evict_set (fun _ _ => True) _ _ _ _ hidx trivial)
    have hwmem : (w.2.1, some w.2.2) ∈ h.m_peers := List.getElem?_mem hidx
    refine ⟨?_, evict_set _ _ _ _ _ hidx ?_⟩
    · intro e he s hl
      exact hPh e (hsub e he (by simp [hl])) s hl
    · intro e he q hl
      have hem := hsub e he (by simp [hl])
      have hq := hPh e hem q hl
      have hw := hPh _ hwmem w.2.2 rfl
      obtain ⟨j, hj⟩ := List.mem_iff_getElem?.mp hem
      have hje : h.m_peers[j]? = some (e.1, some q) := by rw [hj, ← hl]
      have hage : clock (t + liveCount (h.m_peers.take j)) > q.m_connect + (old : Int) := by
        have := hq.2 (t + liveCount (h.m_peers.take j))
        have ho' : (old : Int) ≤ 15000 := by exact_mod_cast ho
        omega
      exact (hmin j e.1 q hje hage).2 (by rw [hq.1, hw.1])

/-- C4 (amended): every pass of the inner loop of `Host::prunePeers` either
leaves the host as it is or disconnects a live session whose connect time was
older than the age threshold at the clock reading taken for it, whose rating
is minimal among the live sessions that the scan found to meet the threshold
(each tested against its own reading of the steady clock), and whose connect
time is the latest among those of that rating.  Consequently, when all live
sessions have the same rating and are found to meet the threshold, the session
disconnected in a pass is a newest-connected one; and when they meet the
threshold of 15000 ms at every reading, `Host::prunePeers` returns and every
session that remains connected no later than every session that was
removed. -/
theorem C4_eviction_order (clock : Nat → Int) :
    (∀ (old fuel t : Nat) (h : Host),
      (∃ t', Host.pruneWhile clock old (fuel + 1) t h = some (h, t')) ∨
      ∃ idx k p, h.m_peers[idx]? = some (k, some p) ∧
        clock (t + liveCount (h.m_peers.take idx)) > p.m_connect + (old : Int) ∧
        (∀ j k' q, h.m_peers[j]? = some (k', some q) →
          clock (t + liveCount (h.m_peers.take j)) > q.m_connect + (old : Int) →
          p.m_rating ≤ q.m_rating ∧ (q.m_rating = p.m_rating → q.m_connect ≤ p.m_connect)) ∧
        Host.pruneWhile clock old (fuel + 1) t h =
          Host.pruneWhile clock old fuel (t + liveCount h.m_peers)
            (h.disconnect idx k DisconnectReason.TooManyPeers)) ∧
    (∀ (old fuel t : Nat) (h : Host) (rating : Int),
      (∀ (j : Nat) (k : NodeId) (q : Session), h.m_peers[j]? = some (k, some q) →
        q.m_rating = rating ∧
        clock (t + liveCount (h.m_peers.take j)) > q.m_connect + (old : Int)) →
      (∃ t', Host.pruneWhile clock old (fuel + 1) t h = some (h, t')) ∨
      ∃ idx k p, h.m_peers[idx]? = some (k, some p) ∧
        (∀ (j : Nat) (k' : NodeId) (q : Session), h.m_peers[j]? = some (k', some q) →
          q.m_connect ≤ p.m_connect) ∧
        Host.pruneWhile clock old (fuel + 1) t h =
          Host.pruneWhile clock old fuel (t + liveCount h.m_peers)
            (h.disconnect idx k DisconnectReason.TooManyPeers)) ∧
    (∀ (h : Host) (rating : Int),
      (∀ e ∈ h.m_peers, ∀ s, e.2 = some s →
        s.m_rating = rating ∧ ∀ t, clock t > s.m_connect + 15000) →
      ∃ r, (∀ fuel, liveCount h.m_peers + 9 ≤ fuel → h.prunePeers clock fuel = some r) ∧
        ∀ e ∈ r.m_peers, ∀ q, e.2 = some q → ∀ d ∈ h.m_peers, ∀ s, d.2 = some s →
          d ∉ r.m_peers → q.m_connect ≤ s.m_connect) := by
  have hpass : ∀ (old fuel t : Nat) (h : Host),
      (∃ t', Host.pruneWhile clock old (fuel + 1) t h = some (h, t')) ∨
      ∃ idx k p, h.m_peers[idx]? = some (k, some p) ∧
        clock (t + liveCount (h.m_peers.take idx)) > p.m_connect + (old : Int) ∧
        (∀ j k' q, h.m_peers[j]? = some (k', some q) →
          clock (t + liveCount (h.m_peers.take j)) > q.m_connect + (old : Int) →
          p.m_rating ≤ q.m_rating ∧ (q.m_rating = p.m_rating → q.m_connect ≤ p.m_connect)) ∧
        Host.pruneWhile clock old (fuel + 1) t h =
          Host.pruneWhile clock old fuel (t + liveCount h.m_peers)
            (h.disconnect idx k DisconnectReason.TooManyPeers) := by
    intro old fuel t h
    rw [pruneWhile_succ]
    by_cases hc : h.m_peers.length > h.m_idealPeerCount
    · rw [if_pos hc]
      have hrd := scanPeers_readings clock old t h.m_peers
      rcases hsc : scanPeers clock old t h.m_peers with ⟨⟨_ | w, aged⟩, t'⟩
      · exact Or.inl ⟨t', rfl⟩
      · simp only
        by_cases ha : aged ≤ h.m_idealPeerCount
        · rw [if_pos ha]; exact Or.inl ⟨t', rfl⟩
        · rw [if_neg ha]
          obtain ⟨h1, h2, h3⟩ := scanPeers_worst clock old t h.m_peers w aged t' hsc
          rw [hsc] at hrd
          simp only at hrd
          rw [hrd]
          exact Or.inr ⟨w.1, w.2.1, w.2.2, h1, h2, h3, rfl⟩
    · rw [if_neg hc]; exact Or.inl ⟨t, rfl⟩
  refine ⟨hpass, ?_, ?_⟩
  · intro old fuel t h rating hsame
    rcases hpass old fuel t h with hstay | ⟨idx, k, p, hidx, _, hmin, heq⟩
    · exact Or.inl hstay
    · refine Or.inr ⟨idx, k, p, hidx, ?_, heq⟩
      intro j k' q hj
      have hq := hsame j k' q hj
      have hp := hsame idx k p hidx
      exact (hmin j k' q hj hq.2).2 (by rw [hq.1, hp.1])
  · intro h rating hP
    obtain ⟨r0, hr0⟩ := pruneFor_terminates clock 8 15000 0 h (by norm_num)
    have hf := hr0 _ (Nat.lt_succ_self _)
    refine ⟨{ r0.1 with m_peers := removeDead r0.1.m_peers }, ?_, ?_⟩
    · intro fuel hfuel
      rw [Host.prunePeers, hr0 fuel (by omega)]
    · intro e he q hq d hd s hs hnot
      simp only [removeDead, List.mem_filter] at he hnot
      have hrel := pruneFor_newest_first clock rating _ h r0 hP hf
      obtain ⟨d', hd', hdd⟩ := evict_mem_left _ _ _ hrel d hd
      rcases hdd with rfl | ⟨s', hs', _, hq'⟩
      · exact absurd ⟨hd', by simp [hs]⟩ hnot
      · rw [hs] at hs'
        cases hs'
        exact hq' e he.1 q hq

/-- C4 as stated fails when the clock advances during a scan: on `hostT` with
the threshold 15000 the scan tests `sessA` (rating 0) against the reading
15100, which it does not meet, and `sessB` (rating 5) against the reading
15151; `sessB` is chosen and is the first session disconnected, although at
the reading 15151 and at every later one `sessA` meets the threshold and has
the lower rating. -/
theorem C4_counterexample :
    scanPeers clockT 15000 0 hostT.m_peers = ((some (1, 2, sessB), 2), 3) ∧
    (∃ r, hostT.prunePeers clockT 12 = some r ∧
      r.effects.head? = some (Effect.disconnect 2 DisconnectReason.TooManyPeers)) ∧
    (1, some sessA) ∈ hostT.m_peers ∧
    clockT 1 > sessA.m_connect + 15000 ∧ clockT 2 > sessA.m_connect + 15000 ∧
    clockT 3 > sessA.m_connect + 15000 ∧
    sessA.m_rating < sessB.m_rating := by
  refine ⟨by decide, ⟨_, rfl, by decide⟩, by decide, by decide, by decide, by decide, by decide⟩

theorem C4_eviction_order_witness :
    (∀ e ∈ hostS.m_peers, ∀ s, e.2 = some s →
      s.m_rating = 0 ∧ ∀ t, clockS t > s.m_connect + 15000) ∧
    ∃ r, (∀ fuel, liveCount hostS.m_peers + 9 ≤ fuel → hostS.prunePeers clockS fuel = some r) ∧
      ∀ e ∈ r.m_peers, ∀ q, e.2 = some q → ∀ d ∈ hostS.m_peers, ∀ s, d.2 = some s →
        d ∉ r.m_peers → q.m_connect ≤ s.m_connect :=
  have hP : ∀ e ∈ hostS.m_peers, ∀ s, e.2 = some s →
      s.m_rating = 0 ∧ ∀ t, clockS t > s.m_connect + 15000 := by
    intro e he s hs
    simp only [hostS, List.mem_cons, List.mem_singleton, List.not_mem_nil, or_false] at he
    rcases he with rfl | rfl | rfl <;> cases hs <;>
      exact ⟨rfl, fun _ => by simp [clockS]⟩
  ⟨hP, (C4_eviction_order clockS).2.2 hostS 0 hP⟩

theorem removeDead_mem (p : List (NodeId × Option Session)) (e : NodeId × Option Session) :
    e ∈ removeDead p ↔ e ∈ p ∧ e.2.isSome = true := by
  simp [removeDead, List.mem_filter]

/-- C9 (amended): only `Host::prunePeers` garbage-collects.  `Host::growPeers`
returns with the peer map exactly as it was, dead entries included.  After
`Host::prunePeers` the peer map has no dead entry, every entry still alive
when the eviction loops end is retained, and every entry that was alive at
entry is either retained or had its session disconnected for `TooManyPeers`
during the call. -/
theorem C9_dead_references (clock : Nat → Int) (time : Nat → Nat) (getPeers : Bytes) :
    (∀ fuel n h r, Host.growPeers clock time getPeers fuel n h = some r →
      r.m_peers = h.m_peers) ∧
    (∀ (fuel : Nat) (h r : Host), h.prunePeers clock fuel = some r →
      (∀ e ∈ r.m_peers, e.2.isSome = true) ∧
      (∀ r0, Host.pruneFor clock fuel 15000 0 h = some r0 →
        ∀ e ∈ r0.1.m_peers, e.2.isSome = true → e ∈ r.m_peers) ∧
      ∃ log, r.effects = h.effects ++ log ∧
        ∀ e ∈ h.m_peers, e.2.isSome = true →
          e ∈ r.m_peers ∨ Effect.disconnect e.1 DisconnectReason.TooManyPeers ∈ log) := by
  refine ⟨growPeers_peers clock time getPeers, ?_⟩
  intro fuel h r hr
  unfold Host.prunePeers at hr
  cases hf : Host.pruneFor clock fuel 15000 0 h with
  | none => rw [hf] at hr; cases hr
  | some r0 =>
    rw [hf] at hr
    simp only [Option.some.injEq] at hr
    subst hr
    refine ⟨?_, ?_, ?_⟩
    · intro e he
      exact ((removeDead_mem _ e).mp he).2
    · intro r1 hr1 e he hl
      cases hr1
      exact (removeDead_mem _ e).mpr ⟨he, hl⟩
    · obtain ⟨_, log, hlog, hrel⟩ := pruneFor_pruned clock fuel 15000 0 h r0 hf
      refine ⟨log, hlog, ?_⟩
      intro e he hl
      obtain ⟨e', he', hee⟩ := evict_mem_left _ _ _ hrel e he
      rcases hee with rfl | ⟨s, _, _, hq⟩
      · exact Or.inl ((removeDead_mem _ _).mpr ⟨he', hl⟩)
      · exact Or.inr hq

/-- C9 as stated fails for `Host::growPeers`: run on `hostB` it returns with
the dead entry for NodeId 10 still in the peer map. -/
theorem C9_counterexample :
    ∃ r, Host.growPeers clockS timeS [0xc1, 4] 1 0 hostB = some r ∧
      ∃ e ∈ r.m_peers, e.2 = none :=
  ⟨_, rfl, (10, none), by decide, rfl⟩

theorem C9_dead_references_witness :
    hostS.prunePeers clockS 12 = some hostS' ∧ ∀ e ∈ hostS'.m_peers, e.2.isSome = true :=
  ⟨by decide, ((C9_dead_references clockS timeS [0xc1, 4]).2 12 hostS hostS' (by decide)).1⟩

theorem agedCount_all (clock : Nat → Int) (old : Nat) (peers : List (NodeId × Option Session))
    (t : Nat)
    (hall : ∀ e ∈ peers, ∃ p, e.2 = some p ∧ ∀ n, clock n > p.m_connect + (old : Int)) :
    agedCount clock old t peers = peers.length := by
  induction peers generalizing t with
  | nil => rfl
  | cons e rest ih =>
    obtain ⟨p, hp, hag⟩ := hall e (List.mem_cons_self _ _)
    obtain ⟨k, s⟩ := e
    simp only at hp
    subst hp
    rw [agedCount_cons_some, if_pos (hag t),
      ih (t + 1) (fun e he => hall e (List.mem_cons_of_mem _ he)), List.length_cons]
    omega

theorem liveCount_all (peers : List (NodeId × Option Session))
    (hall : ∀ e ∈ peers, e.2.isSome = true) : liveCount peers = peers.length :=
  List.countP_eq_length.mpr hall

/-- When the outer loop is entered and the first scan counts more aged
sessions than the ideal count, `Host::prunePeers` returns with fewer live
peers than it started with. -/
theorem prunePeers_evicts (clock : Nat → Int) (h : Host)
    (hlen2 : h.m_peers.length > h.m_idealPeerCount * 2 % 2 ^ 32)
    (hlen : h.m_peers.length > h.m_idealPeerCount)
    (hag : h.m_idealPeerCount < agedCount clock 15000 0 h.m_peers % 2 ^ 32) :
    ∃ r, (∀ fuel, liveCount h.m_peers + 9 ≤ fuel → h.prunePeers clock fuel = some r) ∧
      liveCount r.m_peers < liveCount h.m_peers := by
  obtain ⟨r0, hr0⟩ := pruneFor_terminates clock 8 15000 0 h (by norm_num)
  refine ⟨{ r0.1 with m_peers := removeDead r0.1.m_peers }, ?_, ?_⟩
  · intro fuel hfuel
    rw [Host.prunePeers, hr0 fuel (by omega)]
  · simp only [liveCount_removeDead]
    have hf := hr0 (liveCount h.m_peers + 8 + 1) (by omega)
    rw [pruneFor_succ, if_pos ⟨hlen2, by norm_num⟩] at hf
    cases hw : Host.pruneWhile clock 15000 (liveCount h.m_peers + 8 + 1) 0 h with
    | none => rw [hw] at hf; cases hf
    | some r1 =>
      rw [hw] at hf
      simp only at hf
      have hl2 := pruned_liveCount _ _ (pruneFor_pruned clock _ _ _ _ _ hf)
      rw [pruneWhile_succ, if_pos hlen] at hw
      have hc := (scanPeers_inv clock 15000 0 h.m_peers).2.1
      have hz := scanPeers_none_zero clock 15000 0 h.m_peers
      rcases hsc : scanPeers clock 15000 0 h.m_peers with ⟨⟨_ | w, aged⟩, t'⟩
      · rw [hsc] at hc hz
        have := hz rfl
        simp only at hc this
        omega
      · rw [hsc] at hw hc
        simp only at hw hc
        rw [if_neg (by omega)] at hw
        have hl1 := pruned_liveCount _ _ (pruneWhile_pruned clock _ _ _ _ _ hw)
        have hd := disconnect_worst clock 15000 0 h w aged t' hsc
        omega

theorem bigPeers_length (n : Nat) : (bigPeers n).length = n := by
  simp [bigPeers]

theorem bigPeers_mem (n : Nat) (e : NodeId × Option Session) (he : e ∈ bigPeers n) :
    ∃ p, e.2 = some p ∧ p.m_connect = 0 := by
  simp only [bigPeers, List.mem_map] at he
  obtain ⟨i, _, rfl⟩ := he
  exact ⟨_, rfl, rfl⟩

/-- With `ideal + 1` live peers that are all aged, a host whose doubled ideal
count wraps below its ideal count loses a live peer in `Host::prunePeers`. -/
theorem hostBig_pruned (ideal : Nat) (h0 : 1 ≤ ideal) (h1 : ideal * 2 % 2 ^ 32 < ideal + 1)
    (h2 : ideal < (ideal + 1) % 2 ^ 32) :
    (hostBig ideal).m_peers.length ≤ 2 * (hostBig ideal).m_idealPeerCount ∧
    liveCount (hostBig ideal).m_peers = (hostBig ideal).m_peers.length ∧
    ∃ r, (∀ fuel, liveCount (hostBig ideal).m_peers + 9 ≤ fuel →
        (hostBig ideal).prunePeers clockS fuel = some r) ∧
      liveCount r.m_peers < liveCount (hostBig ideal).m_peers := by
  have hlen : (hostBig ideal).m_peers.length = ideal + 1 := bigPeers_length _
  have hid : (hostBig ideal).m_idealPeerCount = ideal := rfl
  have hlive : liveCount (hostBig ideal).m_peers = (hostBig ideal).m_peers.length := by
    apply liveCount_all
    intro e he
    obtain ⟨p, hp, _⟩ := bigPeers_mem _ e he
    simp [hp]
  have haged : agedCount clockS 15000 0 (hostBig ideal).m_peers
      = (hostBig ideal).m_peers.length := by
    apply agedCount_all
    intro e he
    obtain ⟨p, hp, hc⟩ := bigPeers_mem _ e he
    exact ⟨p, hp, fun n => by rw [hc]; simp [clockS]⟩
  refine ⟨by rw [hlen, hid]; omega, hlive, ?_⟩
  apply prunePeers_evicts
  · rw [hlen, hid]; exact h1
  · rw [hlen, hid]; omega
  · rw [haged, hlen, hid]; exact h2

/-- C10 (amended): for an ideal peer count whose double fits in an `unsigned`,
the outer loop of `Host::prunePeers` changes the host only when the peer map
has more than `2 * idealPeerCount` entries, so a peer map with at most that
many entries is only garbage-collected; and a pass of the inner loop either
leaves the host as it is or finds strictly more than `idealPeerCount` live
sessions meeting the age threshold (each at its own reading of the clock) and
disconnects one; when at most `idealPeerCount` sessions meet the threshold
nothing is disconnected. -/
theorem C10_prune_guard (clock : Nat → Int) (h : Host)
    (hid : h.m_idealPeerCount * 2 < 2 ^ 32) :
    (∀ fuel old t r, Host.pruneFor clock fuel old t h = some r → r.1 ≠ h →
      2 * h.m_idealPeerCount < h.m_peers.length) ∧
    (h.m_peers.length ≤ 2 * h.m_idealPeerCount →
      ∀ fuel, h.prunePeers clock (fuel + 1) = some { h with m_peers := removeDead h.m_peers }) ∧
    (∀ old fuel t,
      (∃ t', Host.pruneWhile clock old (fuel + 1) t h = some (h, t')) ∨
      (h.m_idealPeerCount < agedCount clock old t h.m_peers ∧
        h.m_idealPeerCount < h.m_peers.length ∧
        ∃ idx k, Host.pruneWhile clock old (fuel + 1) t h =
          Host.pruneWhile clock old fuel (t + liveCount h.m_peers)
            (h.disconnect idx k DisconnectReason.TooManyPeers))) ∧
    (∀ old fuel t, agedCount clock old t h.m_peers ≤ h.m_idealPeerCount →
      ∃ t', Host.pruneWhile clock old (fuel + 1) t h = some (h, t')) := by
  have hmod : h.m_idealPeerCount * 2 % 2 ^ 32 = h.m_idealPeerCount * 2 := Nat.mod_eq_of_lt hid
  have hpass : ∀ old fuel t,
      (∃ t', Host.pruneWhile clock old (fuel + 1) t h = some (h, t')) ∨
      (h.m_idealPeerCount < agedCount clock old t h.m_peers ∧
        h.m_idealPeerCount < h.m_peers.length ∧
        ∃ idx k, Host.pruneWhile clock old (fuel + 1) t h =
          Host.pruneWhile clock old fuel (t + liveCount h.m_peers)
            (h.disconnect idx k DisconnectReason.TooManyPeers)) := by
    intro old fuel t
    rw [pruneWhile_succ]
    by_cases hc : h.m_peers.length > h.m_idealPeerCount
    · rw [if_pos hc]
      have hle := scanPeers_aged_le clock old t h.m_peers
      have hrd := scanPeers_readings clock old t h.m_peers
      rcases hsc : scanPeers clock old t h.m_peers with ⟨⟨_ | w, aged⟩, t'⟩
      · exact Or.inl ⟨t', rfl⟩
      · simp only
        rw [hsc] at hle hrd
        simp only at hle hrd
        by_cases ha : aged ≤ h.m_idealPeerCount
        · rw [if_pos ha]; exact Or.inl ⟨t', rfl⟩
        · rw [if_neg ha, hrd]
          exact Or.inr ⟨by omega, hc, w.1, w.2.1, rfl⟩
    · rw [if_neg hc]; exact Or.inl ⟨t, rfl⟩
  refine ⟨?_, ?_, hpass, ?_⟩
  · intro fuel old t r hr hne
    cases fuel with
    | zero => cases hr
    | succ f =>
      rw [pruneFor_succ] at hr
      by_cases hc : h.m_peers.length > h.m_idealPeerCount * 2 % 2 ^ 32 ∧ old > 100
      · rw [hmod] at hc; omega
      · rw [if_neg hc] at hr
        cases hr
        exact absurd rfl hne
  · intro hlen fuel
    unfold Host.prunePeers
    rw [pruneFor_succ, if_neg (by rw [hmod]; omega)]
  · intro old fuel t hle
    rcases hpass old fuel t with hstay | ⟨hgt, _⟩
    · exact hstay
    · omega

/-- C10 as stated fails when `m_idealPeerCount * 2` wraps: with ideal peer
count `2 ^ 31` the product is 0 in `unsigned`, and a peer map of `2 ^ 31 + 1`
live, aged peers, which has at most `2 * idealPeerCount` entries, loses a live
peer in `Host::prunePeers`. -/
theorem C10_counterexample :
    (hostBig 2147483648).m_peers.length ≤ 2 * (hostBig 2147483648).m_idealPeerCount ∧
    liveCount (hostBig 2147483648).m_peers = (hostBig 2147483648).m_peers.length ∧
    ∃ r, (∀ fuel, liveCount (hostBig 2147483648).m_peers + 9 ≤ fuel →
        (hostBig 2147483648).prunePeers clockS fuel = some r) ∧
      liveCount r.m_peers < liveCount (hostBig 2147483648).m_peers :=
  hostBig_pruned 2147483648 (by norm_num) (by norm_num) (by norm_num)

theorem C10_prune_guard_witness :
    hostB.m_idealPeerCount * 2 < 2 ^ 32 ∧
    hostB.m_peers.length ≤ 2 * hostB.m_idealPeerCount ∧
    hostB.prunePeers clockS 1 = some { hostB with m_peers := removeDead hostB.m_peers } :=
  ⟨by decide, by decide, (C10_prune_guard clockS hostB (by decide)).2.1 (by decide) 0⟩

end Eris
